import Mathlib

/-!
Verification of the coronene Hex engine core.

This file gives a shallow embedding of the engine's data model and
operations (board representation, union-find connectivity, move
parsing/formatting, the MCTS player's move bookkeeping, and the rollout
loop) and proves or refutes the specification's claims about them.

Machine integers: the Rust code uses `i8` coordinates (`Coord`) and
`usize` indices.  Coordinates are modelled as `Int` (with explicit
wrap-around `wrap8` where Rust casts between `i8` and `u8`), indices as
`Nat`.  Bit vectors are modelled as `List Bool`, with out-of-range reads
defaulting to `false` and out-of-range writes dropped; all reads and
writes performed by the embedded operations are in range on the boards
considered here.  Fallible operations return `Option`/`Except` or a
`Bool` success flag, mirroring the Rust signatures.
-/

namespace Coronene

/-- `Color` from `board.rs`: `Black` or `White`. -/
inductive Color where
  | black
  | white
deriving Repr, DecidableEq

/-- `Color::invert` from `board.rs`. -/
def Color.invert : Color → Color
  | .black => .white
  | .white => .black

/-- `impl From<Color> for bool` from `board.rs`: `v == Color::White`. -/
def Color.toBool : Color → Bool
  | .black => false
  | .white => true

/-- `impl From<bool> for Color` from `board.rs`. -/
def Color.ofBool : Bool → Color
  | false => .black
  | true => .white

/-- `Pos` from `board.rs`: a pair of (signed) coordinates. -/
structure Pos where
  x : Int
  y : Int
deriving Repr, DecidableEq

instance : Add Pos := ⟨fun a b => ⟨a.x + b.x, a.y + b.y⟩⟩

theorem Pos.add_def (a b : Pos) : a + b = ⟨a.x + b.x, a.y + b.y⟩ := rfl

/-- `Pos::area` from `board.rs`: `x as usize * y as usize`. -/
def Pos.area (p : Pos) : Nat := p.x.toNat * p.y.toNat

/-- `Move` from `board.rs`.  The constructor the source calls `None`
(displayed as `pass`) is named `Move.none` here. -/
inductive Move where
  | resign
  | none
  | play (color : Color) (pos : Pos)
deriving Repr, DecidableEq

/-!
## Union-find

Modelled from the spec (§4.2): the engine's two disjoint-set forests are
`QuickUnionUf<UnionBySize>` values from the external `union_find` crate,
which is not part of this repository's sources.  Per the spec this is a
classical disjoint set with quick-union, union-by-size and path
compression on `find`.  The embedding below implements quick-union with
union-by-size; path compression is omitted because it re-parents nodes
directly to their root and therefore never changes the root returned by
`find`, the sizes of roots, or the root chosen by a later union — the
observable behaviour is identical.  `find` follows parent links with
fuel `parent.length`, which suffices on every forest built by `new` and
`union` (proved below).
-/

structure UF where
  parent : List Nat
  size : List Nat
deriving Repr, DecidableEq

/-- A fresh forest of `n` singletons. -/
def UF.new (n : Nat) : UF := ⟨List.range n, List.replicate n 1⟩

/-- Follow parent links for at most `fuel` steps. -/
def UF.findAux (p : List Nat) : Nat → Nat → Nat
  | 0, i => i
  | fuel+1, i =>
    let j := p.getD i i
    if j = i then i else UF.findAux p fuel j

/-- `find`: the root of `i`'s tree. -/
def UF.find (u : UF) (i : Nat) : Nat := UF.findAux u.parent u.parent.length i

/-- `union`: link the two roots, larger size wins (ties to the first
argument's root, as in `UnionBySize`). -/
def UF.union (u : UF) (a b : Nat) : UF :=
  if u.find a = u.find b then u
  else if u.size.getD (u.find b) 1 ≤ u.size.getD (u.find a) 1 then
    ⟨u.parent.set (u.find b) (u.find a),
      u.size.set (u.find a) (u.size.getD (u.find a) 1 + u.size.getD (u.find b) 1)⟩
  else
    ⟨u.parent.set (u.find a) (u.find b),
      u.size.set (u.find b) (u.size.getD (u.find a) 1 + u.size.getD (u.find b) 1)⟩

/-- Two elements are equivalent when they have the same root. -/
def UF.Equiv (u : UF) (i j : Nat) : Prop := u.find i = u.find j

instance (u : UF) (i j : Nat) : Decidable (u.Equiv i j) := by
  unfold UF.Equiv; infer_instance

/-!
## Board
-/

/-- `Board` from `board.rs`.  `colors` and `empty_cells` model the two
`BitVec`s; the source's `groups: Vec<QuickUnionUf<UnionBySize>>` of
length 2 (index 0 = Black, index 1 = White) is modelled by the two
fields `groupsB` and `groupsW`. -/
structure Board where
  dims : Pos
  colors : List Bool
  empty_cells : List Bool
  to_play : Color
  groupsB : UF
  groupsW : UF
  last_move : Move
  winner : Option Color
deriving Repr, DecidableEq

/-- `groups[c as usize]`. -/
def Board.groups (b : Board) : Color → UF
  | .black => b.groupsB
  | .white => b.groupsW

/-- Replace `groups[c as usize]`. -/
def Board.setGroups (b : Board) : Color → UF → Board
  | .black, u => { b with groupsB := u }
  | .white, u => { b with groupsW := u }

/-- `Board::new` from `board.rs`. -/
def Board.new (dims : Pos) : Board where
  dims := dims
  colors := List.replicate dims.area false
  empty_cells := List.replicate dims.area true
  to_play := .black
  groupsB := UF.new (dims.area + 2)
  groupsW := UF.new (dims.area + 2)
  last_move := .none
  winner := Option.none

/-- `Board::on_board` from `board.rs`. -/
def Board.on_board (b : Board) (p : Pos) : Bool :=
  decide (0 ≤ p.x) && decide (0 ≤ p.y) && decide (p.x < b.dims.x) && decide (p.y < b.dims.y)

/-- `Board::idx_of` from `board.rs`.  Note the source linearisation
`pos.y as usize * self.dims.y as usize + pos.x as usize`, which uses
`dims.y` as the stride (the spec flags this as a probable bug on
non-square boards; it is embedded as written). -/
def Board.idx_of (b : Board) (p : Pos) : Option Nat :=
  if b.on_board p then some (p.y.toNat * b.dims.y.toNat + p.x.toNat) else Option.none

/-- `Board::edge_idx` from `board.rs`. -/
def Board.edge_idx (b : Board) (edge : Nat) : Nat := b.dims.area + edge

/-- `Board::get` from `board.rs`: cell colour on the board, edge colour
off the board (left/right columns White, top/bottom rows Black, corner
regions undefined). -/
def Board.get (b : Board) (p : Pos) : Option Color :=
  match b.idx_of p with
  | some idx =>
    if b.empty_cells.getD idx false then Option.none
    else some (Color.ofBool (b.colors.getD idx false))
  | Option.none =>
    if (p.x < 0 ∨ b.dims.x ≤ p.x) ∧ 0 ≤ p.y ∧ p.y < b.dims.y then some .white
    else if (p.y < 0 ∨ b.dims.y ≤ p.y) ∧ 0 ≤ p.x ∧ p.x < b.dims.x then some .black
    else Option.none

/-- `Board::is_empty` from `board.rs`. -/
def Board.is_empty (b : Board) (p : Pos) : Bool := (b.get p).isNone

/-- `Board::group_idx` from `board.rs`. -/
def Board.group_idx (b : Board) (p : Pos) : Option Nat :=
  match b.idx_of p with
  | some idx => some idx
  | Option.none =>
    if p.x = -1 ∨ p.y = -1 then some (b.edge_idx 0)
    else if p.x = b.dims.x ∨ p.y = b.dims.y then some (b.edge_idx 1)
    else Option.none

/-- The neighbour pattern list of `Board::update_groups` (in source
order). -/
def neighborPatterns : List Pos := [⟨-1, 0⟩, ⟨0, -1⟩, ⟨-1, 1⟩, ⟨0, 1⟩, ⟨1, 0⟩, ⟨1, -1⟩]

/-- The body of `Board::update_groups`'s neighbour loop: union `idx`
with the neighbour `pos + pat` when that neighbour holds `val`. -/
def Board.ugStep (b : Board) (pos : Pos) (val : Color) (idx : Nat) (u : UF) (pat : Pos) : UF :=
  if b.get (pos + pat) = some val then
    match b.group_idx (pos + pat) with
    | some k => u.union idx k
    | Option.none => u
  else u

/-- `Board::update_groups` from `board.rs`: union the cell at `pos`
with each same-coloured neighbour (edges included) in its colour's
forest.  The source's two `unwrap`s cannot fire on the on-board cells
this is called with; the corresponding `Option.none` branches are
no-ops here. -/
def Board.update_groups (b : Board) (pos : Pos) : Board :=
  match b.get pos with
  | Option.none => b
  | some val =>
    match b.idx_of pos with
    | Option.none => b
    | some idx =>
      b.setGroups val (neighborPatterns.foldl (b.ugStep pos val idx) (b.groups val))

/-- `Board::update_winner` from `board.rs`: the `for i in 0..2` loop
overwrites, so a White edge-to-edge connection takes precedence over a
Black one. -/
def Board.update_winner (b : Board) : Board :=
  let e0 := b.edge_idx 0
  let e1 := b.edge_idx 1
  let w :=
    if (b.groups .white).find e0 = (b.groups .white).find e1 then some Color.white
    else if (b.groups .black).find e0 = (b.groups .black).find e1 then some Color.black
    else Option.none
  { b with winner := w }

/-- `Board::rebuild_groups` from `board.rs`: fresh forests, then
`update_groups` on every cell (`x` outer, `y` inner — the loop bounds
`self.dims` never change, since `update_groups` touches only the
forests), then `update_winner`. -/
def Board.rebuild_groups (b : Board) : Board :=
  let b' := { b with groupsB := UF.new (b.dims.area + 2), groupsW := UF.new (b.dims.area + 2) }
  let b'' := (List.range b.dims.x.toNat).foldl (fun bb x =>
    (List.range b.dims.y.toNat).foldl (fun bbb y =>
      bbb.update_groups ⟨Int.ofNat x, Int.ofNat y⟩) bb) b'
  b''.update_winner

/-- `Board::set` from `board.rs`.  Returns the mutated board and the
`bool` result. -/
def Board.set (b : Board) (pos : Pos) (val : Option Color) : Board × Bool :=
  match b.idx_of pos with
  | Option.none => (b, false)
  | some idx =>
    let b := { b with empty_cells := b.empty_cells.set idx val.isNone }
    match val with
    | some color =>
      let b := { b with colors := b.colors.set idx color.toBool }
      (((b.update_groups pos).update_winner), true)
    | Option.none => (b.rebuild_groups, true)

/-- `Board::clear_cell` from `board.rs`. -/
def Board.clear_cell (b : Board) (pos : Pos) : Board := (b.set pos Option.none).1

/-- `Board::play` from `board.rs`.  Note that the `Resign`/`None`
branch changes nothing (in particular it does not touch `last_move`),
and that `to_play` and `last_move` are written before `set` is
consulted, so a rejected off-board "corner" move still mutates them. -/
def Board.play (b : Board) (m : Move) : Board × Bool :=
  match m with
  | .resign => (b, true)
  | .none => (b, true)
  | .play color pos =>
    if !b.is_empty pos then (b, false)
    else
      let b := { b with to_play := color.invert, last_move := m }
      b.set pos (some color)

/-!
## Pos parsing and formatting

`impl FromStr for Pos` and `impl fmt::Display for Pos` from
`board.rs`.  Strings are modelled as lists of characters.  `wrap8`
models Rust's `i8` two's-complement wrap-around; the source positions
used by the claims never wrap.  Lowercasing is ASCII (the source uses
Unicode `to_lowercase`, which agrees with ASCII on the formatted
output considered here), and `as_bytes` indexing is modelled on the
character codes (the strings in question are ASCII).
-/

/-- Wrap an integer into the `i8` range, as Rust's `as i8` does. -/
def wrap8 (v : Int) : Int := (v + 128).emod 256 - 128

/-- Decimal digits of a natural number (fuel-based so that it reduces
in the kernel). -/
def natDigitsAux : Nat → Nat → List Char
  | 0, _ => []
  | fuel+1, n =>
    if n < 10 then [Char.ofNat (48 + n)]
    else natDigitsAux fuel (n / 10) ++ [Char.ofNat (48 + n % 10)]

def natDigits (n : Nat) : List Char := natDigitsAux (n + 1) n

/-- Decimal rendering of a signed integer, as `fmt::Display` for `i8`
produces. -/
def intDisplay (v : Int) : List Char :=
  if v < 0 then '-' :: natDigits (-v).toNat else natDigits v.toNat

/-- `impl fmt::Display for Pos`: the column letter
`(x + 'A' as Coord) as u8 as char` followed by the decimal row
`y + 1`. -/
def Pos.fmt (p : Pos) : List Char :=
  Char.ofNat ((wrap8 (p.x + 65)).emod 256).toNat :: intDisplay (wrap8 (p.y + 1))

/-- ASCII lowercase of one character. -/
def toLowerCh (c : Char) : Char :=
  if 65 ≤ c.toNat ∧ c.toNat ≤ 90 then Char.ofNat (c.toNat + 32) else c

/-- `str::parse::<i8>`: optional sign, at least one digit, value must
fit in `i8`. -/
def parseI8 (cs : List Char) : Option Int :=
  let (sgn, ds) : Int × List Char :=
    match cs with
    | '+' :: t => (1, t)
    | '-' :: t => (-1, t)
    | t => (1, t)
  match ds with
  | [] => Option.none
  | _ =>
    match ds.foldl (fun acc c =>
        match acc with
        | Option.none => Option.none
        | some v =>
          if 48 ≤ c.toNat ∧ c.toNat ≤ 57 then some (v * 10 + (c.toNat - 48)) else Option.none)
        (some (0 : Nat)) with
    | Option.none => Option.none
    | some v =>
      let val := sgn * (v : Int)
      if -128 ≤ val ∧ val ≤ 127 then some val else Option.none

/-- `impl FromStr for Pos`: lowercase, first byte must be `a`..`z`
(giving `x`), remainder parses as a decimal row whose value minus one
gives `y`.  The source indexes `b[0]` unguarded — it would panic on an
empty string; that case is modelled as a parse failure. -/
def Pos.parse (cs : List Char) : Option Pos :=
  match cs.map toLowerCh with
  | [] => Option.none
  | c0 :: rest =>
    if 97 ≤ c0.toNat ∧ c0.toNat ≤ 122 then
      match parseI8 rest with
      | some y => some ⟨((c0.toNat - 97 : Nat) : Int), wrap8 (y - 1)⟩
      | Option.none => Option.none
    else Option.none

/-!
## AtomicInitVec

`AtomicInitVec` from `misc/atomic_vec.rs`, modelled for sequential use
(which is the scope of claim C7): the state is the published vector,
if any.  `init` publishes only into an empty cell and reports whether
it did; `slice` reads the published contents or the empty slice.
-/

def AtomicInitVec (α : Type) : Type := Option (List α)

/-- `AtomicInitVec::new`: nothing published. -/
def AtomicInitVec.new {α : Type} : AtomicInitVec α := Option.none

/-- `AtomicInitVec::init`: publish `items` if nothing is published yet;
return whether `items` was installed. -/
def AtomicInitVec.init {α : Type} (s : AtomicInitVec α) (items : List α) :
    AtomicInitVec α × Bool :=
  match s with
  | some v => (some v, false)
  | Option.none => (some items, true)

/-- `AtomicInitVec::slice`: the published contents, or the empty
slice. -/
def AtomicInitVec.slice {α : Type} (s : AtomicInitVec α) : List α :=
  s.getD []

/-- Run a sequence of `init` calls, collecting each call's result. -/
def AtomicInitVec.initMany {α : Type} (s : AtomicInitVec α) :
    List (List α) → AtomicInitVec α × List Bool
  | [] => (s, [])
  | v :: vs =>
    let (s', r) := s.init v
    let (s'', rs) := s'.initMany vs
    (s'', r :: rs)

/-!
## MCTS player

`MCTSPlayer` from `mctsplayer.rs`, restricted to the state its move
bookkeeping touches: the board, the search tree and the undo history.
The tree is modelled as a rose tree carrying each node's action and
statistic counters (`mc`/`rave` atomics flattened to plain integers —
no concurrency is involved in the claims below); `orphan` + re-rooting
is modelled by taking the child subtree as the new tree, and parent
back-links are implicit.  `moves` is the `Vec<Move>` undo stack with
the most recent move first (Rust pushes and pops at the end).
-/

inductive GTree where
  | node (action : Move) (mcN mcQ raveN raveQ : Int) (children : List GTree)

def GTree.action : GTree → Move
  | .node a _ _ _ _ _ => a

def GTree.children : GTree → List GTree
  | .node _ _ _ _ _ c => c

/-- A fresh root: `NodeRef::new(MCTSNode::new(Move::None))`. -/
def freshNode : GTree := .node .none 0 0 0 0 []

structure MCTSPlayer where
  board : Board
  tree : GTree
  moves : List Move

/-- `MCTSPlayer::new`. -/
def MCTSPlayer.new : MCTSPlayer := ⟨Board.new ⟨13, 13⟩, freshNode, []⟩

/-- `MCTSPlayer::play_move`: re-root onto the matching child (or clear
the tree), push `m` onto the undo history, then — and only then — ask
the board to play `m`. -/
def MCTSPlayer.play_move (ps : MCTSPlayer) (m : Move) : MCTSPlayer × Bool :=
  let found := ps.tree.children.find? (fun t => decide (t.action = m))
  let tree' := match found with
    | some t => t
    | Option.none => freshNode
  let (b', ok) := ps.board.play m
  ({ board := b', tree := tree', moves := m :: ps.moves }, ok)

/-- `MCTSPlayer::undo`: pop the history; if the popped move was a
`Play`, clear that cell (rebuilding the forests) and clear the tree. -/
def MCTSPlayer.undo (ps : MCTSPlayer) : MCTSPlayer :=
  match ps.moves with
  | [] => ps
  | m :: rest =>
    match m with
    | .play _ pos =>
      { board := ps.board.clear_cell pos, tree := freshNode, moves := rest }
    | _ => { ps with moves := rest }

/-- `MCTSPlayer::set_board_size`. -/
def MCTSPlayer.set_board_size (cols rows : Int) : MCTSPlayer :=
  ⟨Board.new ⟨cols, rows⟩, freshNode, []⟩

/-!
## Rollout

`SearchThread::roll_out` and `SearchThread::must_play` from
`mctsplayer.rs`.  The random draws (`gen_range` for the bridge-scan
rotation and for the uniform cell pick) are made explicit as a list of
choice values, consumed in the order the source draws them; a pick
among `n` candidates uses the next value modulo `n`.  The source's
fatal branches are modelled as `RollErr` values: `filledCell` is the
`"roll out chose filled cell!"` panic, `mustPlayNotFound` the
`position(..).unwrap()` panic, `emptyRange` the `gen_range(0, 0)`
panic, and `unwrapNone` the final `winner().unwrap()` panic.

`Board::iter_empty` is called by `roll_out` but is not among the
sources of this repository snapshot; it is modelled from the spec.
-/

/-- Modelled from the spec: `iter_empty` (absent from the sources;
only its callers in `mctsplayer.rs` are present) yields the positions
of all currently empty cells of the board, row by row — §4.4
"one `Play{color, pos}` per empty cell" and §4.5(c) "pick a uniformly
random empty cell". -/
def Board.iter_empty (b : Board) : List Pos :=
  ((List.range b.dims.y.toNat).map (fun y =>
    (List.range b.dims.x.toNat).filterMap (fun x =>
      let p : Pos := ⟨(x : Int), (y : Int)⟩
      if b.get p = Option.none then some p else Option.none))).flatten

/-- The neighbour pattern list of `SearchThread::must_play` (in source
order — it differs from `Board::update_groups`'s list). -/
def ringPatterns : List Pos := [⟨-1, 0⟩, ⟨0, -1⟩, ⟨1, -1⟩, ⟨1, 0⟩, ⟨0, 1⟩, ⟨-1, 1⟩]

/-- The bridge scan of `SearchThread::must_play`: starting from a
random rotation `start`, find the first `i` whose two bridge ends are
both the side to move's colour with an empty response cell. -/
def mustPlayScan (b : Board) (pos : Pos) (start : Nat) : Option Move :=
  (List.range 6).findSome? (fun k =>
    let i := start + k
    let endA := pos + ringPatterns.getD (i % 6) ⟨0, 0⟩
    let endB := pos + ringPatterns.getD ((i + 2) % 6) ⟨0, 0⟩
    let resp := pos + ringPatterns.getD ((i + 1) % 6) ⟨0, 0⟩
    if b.get endA = some b.to_play ∧ b.get endA = b.get endB ∧ (b.get resp).isNone then
      some (Move.play b.to_play resp)
    else Option.none)

/-- `SearchThread::must_play`: `Resign` when the game is over,
otherwise the save-the-bridge response to the last move if one exists,
otherwise `None`. -/
def mustPlay (b : Board) (start : Nat) : Move :=
  if (b.winner).isSome then .resign
  else
    match b.last_move with
    | .play _ pos =>
      match mustPlayScan b pos start with
      | some m => m
      | Option.none => .none
    | _ => .none

inductive RollErr where
  | filledCell
  | mustPlayNotFound
  | emptyRange
  | unwrapNone
  | outOfFuel
deriving Repr, DecidableEq

/-- One loop of `SearchThread::roll_out`, with explicit fuel (each
iteration that does not finish removes one cell from the local empty
list, so `length + 1` fuel always suffices). -/
def rollOutAux : Nat → Board → List Pos → List Nat → Except RollErr (Color × Board)
  | 0, _, _, _ => .error .outOfFuel
  | fuel+1, b, empties, choices =>
    match b.winner with
    | some w => .ok (w, b)
    | Option.none =>
      let (mp, choices) :=
        match b.last_move with
        | .play _ _ => (mustPlay b (choices.headD 0), choices.tail)
        | _ => (Move.none, choices)
      match mp with
      | .resign => .error .unwrapNone
      | .none =>
        match empties with
        | [] => .error .emptyRange
        | _ =>
          let k := choices.headD 0 % empties.length
          let pos := empties.getD k ⟨0, 0⟩
          let empties' := empties.eraseIdx k
          let m := Move.play b.to_play pos
          match b.play m with
          | (_, false) => .error .filledCell
          | (b', true) => rollOutAux fuel b' empties' choices.tail
      | .play _ pos =>
        match empties.findIdx? (fun x => decide (x = pos)) with
        | Option.none => .error .mustPlayNotFound
        | some i =>
          let empties' := empties.eraseIdx i
          match b.play mp with
          | (_, false) => .error .filledCell
          | (b', true) => rollOutAux fuel b' empties' choices

/-- `SearchThread::roll_out`: collect the empty cells, then loop. -/
def rollOut (b : Board) (choices : List Nat) : Except RollErr (Color × Board) :=
  let empties := b.iter_empty
  rollOutAux (empties.length + 1) b empties choices

instance {ε α : Type} [DecidableEq ε] [DecidableEq α] : DecidableEq (Except ε α) := fun x y =>
  match x, y with
  | .error a, .error b =>
    if h : a = b then .isTrue (congrArg Except.error h)
    else .isFalse (fun hc => h (Except.error.inj hc))
  | .ok a, .ok b =>
    if h : a = b then .isTrue (congrArg Except.ok h)
    else .isFalse (fun hc => h (Except.ok.inj hc))
  | .error _, .ok _ => .isFalse (fun hc => Except.noConfusion hc)
  | .ok _, .error _ => .isFalse (fun hc => Except.noConfusion hc)

/-!
## Union-find theory

Correctness of the union-find model: on every forest produced by
`UF.new` and `UF.union`, `find`-equality coincides with the
equivalence closure of the union pairs that were issued.
-/

/-- `i` is its own parent. -/
def UF.IsRoot (p : List Nat) (i : Nat) : Prop := p.getD i i = i

theorem UF.findAux_succ (p : List Nat) (f i : Nat) :
    UF.findAux p (f + 1) i = if p.getD i i = i then i else UF.findAux p f (p.getD i i) := rfl

theorem UF.findAux_of_isRoot {p : List Nat} {i : Nat} (h : UF.IsRoot p i) :
    ∀ f, UF.findAux p f i = i := by
  intro f
  cases f with
  | zero => rfl
  | succ f => rw [UF.findAux_succ]; exact if_pos h

theorem UF.findAux_add (p : List Nat) (f g i : Nat) :
    UF.findAux p (f + g) i = UF.findAux p g (UF.findAux p f i) := by
  induction f generalizing i with
  | zero => simp [UF.findAux]
  | succ f ih =>
    by_cases h : UF.IsRoot p i
    · rw [UF.findAux_of_isRoot h, UF.findAux_of_isRoot h,
        UF.findAux_of_isRoot h]
    · have hne : ¬ (p.getD i i = i) := h
      have h1 : UF.findAux p (f + 1) i = UF.findAux p f (p.getD i i) := by
        rw [UF.findAux_succ, if_neg hne]
      have h2 : f + 1 + g = (f + g) + 1 := by omega
      have h3 : UF.findAux p ((f + g) + 1) i = UF.findAux p (f + g) (p.getD i i) := by
        rw [UF.findAux_succ, if_neg hne]
      rw [h2, h3, ih, h1]

theorem UF.findAux_stable {p : List Nat} {f i : Nat}
    (h : UF.IsRoot p (UF.findAux p f i)) (g : Nat) :
    UF.findAux p (f + g) i = UF.findAux p f i := by
  rw [UF.findAux_add, UF.findAux_of_isRoot h]

theorem UF.findAux_lt {p : List Nat} (hp : ∀ j, j < p.length → p.getD j j < p.length)
    {i : Nat} (hi : i < p.length) (f : Nat) : UF.findAux p f i < p.length := by
  induction f generalizing i with
  | zero => exact hi
  | succ f ih =>
    by_cases h : p.getD i i = i
    · rw [UF.findAux_succ, if_pos h]; exact hi
    · rw [UF.findAux_succ, if_neg h]; exact ih (hp i hi)

theorem UF.getD_oob {p : List Nat} {i : Nat} (hi : p.length ≤ i) : p.getD i i = i := by
  rw [List.getD_eq_getElem?_getD, List.getElem?_eq_none (by omega)]; rfl

theorem UF.findAux_oob {p : List Nat} {i : Nat} (hi : p.length ≤ i) (f : Nat) :
    UF.findAux p f i = i :=
  UF.findAux_of_isRoot (UF.getD_oob hi) f

/-- Well-formed forest: sizes parallel parents, parents stay in range,
and `find`'s fuel suffices to reach a root from every node. -/
structure UF.WF (u : UF) : Prop where
  szLen : u.size.length = u.parent.length
  parentLt : ∀ j, j < u.parent.length → u.parent.getD j j < u.parent.length
  rooted : ∀ i, i < u.parent.length → UF.IsRoot u.parent (u.find i)

theorem UF.WF.rooted_all {u : UF} (h : u.WF) (i : Nat) : UF.IsRoot u.parent (u.find i) := by
  by_cases hi : i < u.parent.length
  · exact h.rooted i hi
  · rw [UF.find, UF.findAux_oob (by omega)]
    exact UF.getD_oob (by omega)

theorem UF.find_oob {u : UF} {i : Nat} (hi : u.parent.length ≤ i) : u.find i = i :=
  UF.findAux_oob hi _

theorem UF.find_lt {u : UF} (h : u.WF) {i : Nat} (hi : i < u.parent.length) :
    u.find i < u.parent.length :=
  UF.findAux_lt h.parentLt hi _

theorem UF.find_idem {u : UF} (h : u.WF) (i : Nat) : u.find (u.find i) = u.find i :=
  UF.findAux_of_isRoot (h.rooted_all i) _

theorem UF.getD_range {n i : Nat} : (List.range n).getD i i = i := by
  rw [List.getD_eq_getElem?_getD]
  by_cases h : i < n
  · rw [List.getElem?_range h]; rfl
  · rw [List.getElem?_eq_none (by simpa using h)]; rfl

theorem UF.find_new (n i : Nat) : (UF.new n).find i = i :=
  UF.findAux_of_isRoot UF.getD_range _

theorem UF.wf_new (n : Nat) : (UF.new n).WF := by
  refine ⟨by simp [UF.new], ?_, ?_⟩
  · intro j hj
    rw [UF.new] at hj ⊢
    rw [UF.getD_range]
    exact hj
  · intro i _
    rw [UF.find_new]
    exact UF.getD_range

/-- Fresh forests separate everything. -/
theorem UF.equiv_new {n i j : Nat} : (UF.new n).Equiv i j ↔ i = j := by
  rw [UF.Equiv, UF.find_new, UF.find_new]

theorem UF.getD_set_self {p : List Nat} {l w : Nat} (hl : l < p.length) :
    (p.set l w).getD l l = w := by
  rw [List.getD_eq_getElem?_getD, List.getElem?_set_self hl]; rfl

theorem UF.getD_set_ne {p : List Nat} {l w j : Nat} (h : l ≠ j) :
    (p.set l w).getD j j = p.getD j j := by
  rw [List.getD_eq_getElem?_getD, List.getElem?_set_ne h, ← List.getD_eq_getElem?_getD]

/-- Relinking the root `l` under the root `w`: with one extra unit of
fuel, the new root of `i` is `w` exactly when its old root was `l`. -/
theorem UF.link_findAux {p : List Nat} {w l : Nat}
    (hpLt : ∀ j, j < p.length → p.getD j j < p.length)
    (hw : w < p.length) (hl : l < p.length)
    (hrw : UF.IsRoot p w) (hrl : UF.IsRoot p l) (hne : w ≠ l) :
    ∀ f i, i < p.length → ∀ _ : UF.IsRoot p (UF.findAux p f i),
      UF.findAux (p.set l w) (f + 1) i =
        if UF.findAux p f i = l then w else UF.findAux p f i := by
  have hrw' : UF.IsRoot (p.set l w) w := by
    rw [UF.IsRoot, UF.getD_set_ne (Ne.symm hne)]; exact hrw
  intro f
  induction f with
  | zero =>
    intro i _ hri
    by_cases hil : i = l
    · rw [hil]
      have h1 : (p.set l w).getD l l = w := UF.getD_set_self hl
      rw [UF.findAux_succ, h1, if_neg (by omega : ¬ w = l)]
      simp [UF.findAux]
    · have h1 : (p.set l w).getD i i = i := by
        rw [UF.getD_set_ne (by omega)]; exact hri
      rw [show (0 + 1) = 1 from rfl, UF.findAux_succ, if_pos h1]
      rw [UF.findAux] at hri ⊢
      exact (if_neg hil).symm
  | succ f ih =>
    intro i hi hri
    by_cases hroot : UF.IsRoot p i
    · rw [UF.findAux_of_isRoot hroot]
      by_cases hil : i = l
      · rw [hil]
        have h1 : (p.set l w).getD l l = w := UF.getD_set_self hl
        rw [UF.findAux_succ, h1, if_neg (by omega : ¬ w = l),
          UF.findAux_of_isRoot hrw', if_pos rfl]
      · have h1 : UF.IsRoot (p.set l w) i := by
          rw [UF.IsRoot, UF.getD_set_ne (by omega)]; exact hroot
        rw [UF.findAux_of_isRoot h1, if_neg hil]
    · have hil : i ≠ l := fun hc => hroot (hc ▸ hrl)
      have hstep : ¬ (p.getD i i = i) := hroot
      have hstep' : ¬ ((p.set l w).getD i i = i) := by
        rw [UF.getD_set_ne (Ne.symm hil)]; exact hstep
      have hprev : UF.findAux p (f + 1) i = UF.findAux p f (p.getD i i) := by
        rw [UF.findAux_succ, if_neg hstep]
      rw [hprev] at hri ⊢
      have h2 : UF.findAux (p.set l w) (f + 1 + 1) i =
          UF.findAux (p.set l w) (f + 1) (p.getD i i) := by
        rw [UF.findAux_succ, if_neg hstep', UF.getD_set_ne (Ne.symm hil)]
      rw [h2]
      exact ih (p.getD i i) (hpLt i hi) hri

/-- Periodicity: once the fuel trace repeats, every later fuel value
revisits the window of the repeat. -/
theorem UF.findAux_period {p : List Nat} {i s t : Nat} (hst : s < t)
    (heq : UF.findAux p s i = UF.findAux p t i) :
    ∀ m, s ≤ m → ∃ m', s ≤ m' ∧ m' < t ∧ UF.findAux p m i = UF.findAux p m' i := by
  intro m
  induction m using Nat.strong_induction_on with
  | _ m ih =>
    intro hm
    by_cases hmt : m < t
    · exact ⟨m, hm, hmt, rfl⟩
    · have hmt' : t ≤ m := le_of_not_lt hmt
      have h1 : UF.findAux p m i = UF.findAux p (s + (m - t)) i := by
        have e1 : m = t + (m - t) := by omega
        calc UF.findAux p m i = UF.findAux p (t + (m - t)) i := by rw [← e1]
          _ = UF.findAux p (m - t) (UF.findAux p t i) := UF.findAux_add ..
          _ = UF.findAux p (m - t) (UF.findAux p s i) := by rw [heq]
          _ = UF.findAux p (s + (m - t)) i := (UF.findAux_add ..).symm
      have hlt : s + (m - t) < m := by omega
      obtain ⟨m', hm1, hm2, hm3⟩ := ih (s + (m - t)) hlt (by omega)
      exact ⟨m', hm1, hm2, h1.trans hm3⟩

/-- If some fuel reaches a root then fuel `p.length` already does, and
with the same result. -/
theorem UF.pigeonhole_root {p : List Nat}
    (hpLt : ∀ j, j < p.length → p.getD j j < p.length)
    {i : Nat} (hi : i < p.length) {g : Nat}
    (hg : UF.IsRoot p (UF.findAux p g i)) :
    UF.IsRoot p (UF.findAux p p.length i) ∧
      UF.findAux p p.length i = UF.findAux p g i := by
  set n := p.length with hn
  by_cases hroot : UF.IsRoot p (UF.findAux p n i)
  · refine ⟨hroot, ?_⟩
    have h1 : UF.findAux p (n + g) i = UF.findAux p n i := UF.findAux_stable hroot g
    have h2 : UF.findAux p (g + n) i = UF.findAux p g i := UF.findAux_stable hg n
    rw [← h1, Nat.add_comm, h2]
  · exfalso
    by_cases hgn : g ≤ n
    · have : UF.findAux p (g + (n - g)) i = UF.findAux p g i := UF.findAux_stable hg _
      rw [show g + (n - g) = n by omega] at this
      exact hroot (this ▸ hg)
    · -- pigeonhole: fuels 0..n give n+1 values below n
      have hmap : ∀ s ∈ Finset.range (n + 1), UF.findAux p s i ∈ Finset.range n := by
        intro s _
        exact Finset.mem_range.mpr (UF.findAux_lt hpLt hi s)
      obtain ⟨x, hx, y, hy, hxy, hfeq⟩ :=
        Finset.exists_ne_map_eq_of_card_lt_of_maps_to
          (by simp : (Finset.range n).card < (Finset.range (n + 1)).card) hmap
      have hx' : x ≤ n := Nat.lt_succ_iff.mp (Finset.mem_range.mp hx)
      have hy' : y ≤ n := Nat.lt_succ_iff.mp (Finset.mem_range.mp hy)
      -- order the repeat
      obtain ⟨s, t, hst, hts, hseq⟩ :
          ∃ s t, s < t ∧ t ≤ n ∧ UF.findAux p s i = UF.findAux p t i := by
        rcases lt_or_gt_of_ne hxy with h | h
        · exact ⟨x, y, h, hy', hfeq⟩
        · exact ⟨y, x, h, hx', hfeq.symm⟩
      obtain ⟨m', hm1, hm2, hm3⟩ := UF.findAux_period hst hseq g (by omega)
      -- the value at m' is not a root (else fuel n would stabilise)
      have hm'root : ¬ UF.IsRoot p (UF.findAux p m' i) := by
        intro hc
        have : UF.findAux p (m' + (n - m')) i = UF.findAux p m' i :=
          UF.findAux_stable hc _
        rw [show m' + (n - m') = n by omega] at this
        exact hroot (this ▸ hc)
      exact hm'root (hm3 ▸ hg)

/-- The `find` of a relinked forest, at `find`'s own fuel. -/
theorem UF.link_find {u : UF} (h : u.WF) {w l : Nat}
    (hw : w < u.parent.length) (hl : l < u.parent.length)
    (hrw : UF.IsRoot u.parent w) (hrl : UF.IsRoot u.parent l) (hne : w ≠ l)
    (s' : List Nat) (i : Nat) :
    (⟨u.parent.set l w, s'⟩ : UF).find i = if u.find i = l then w else u.find i := by
  set p := u.parent with hp
  set p' := p.set l w with hp'
  have hlen : p'.length = p.length := List.length_set ..
  by_cases hi : i < p.length
  · have hroot : UF.IsRoot p (UF.findAux p p.length i) := h.rooted i hi
    have hstep := UF.link_findAux h.parentLt hw hl hrw hrl hne p.length i hi hroot
    -- the (fuel+1) result is a root of p'
    have hres : UF.IsRoot p' (if UF.findAux p p.length i = l then w
        else UF.findAux p p.length i) := by
      by_cases hc : UF.findAux p p.length i = l
      · rw [if_pos hc, UF.IsRoot, UF.getD_set_ne (Ne.symm hne)]; exact hrw
      · rw [if_neg hc, UF.IsRoot, UF.getD_set_ne (Ne.symm hc)]; exact hroot
    have hpLt' : ∀ j, j < p'.length → p'.getD j j < p'.length := by
      intro j hj
      rw [hlen] at hj ⊢
      by_cases hjl : j = l
      · rw [hjl, UF.getD_set_self hl]; exact hw
      · rw [UF.getD_set_ne (Ne.symm hjl)]; exact h.parentLt j hj
    rw [← hstep] at hres
    obtain ⟨_, heq⟩ := UF.pigeonhole_root hpLt' (by rw [hlen]; exact hi) hres
    rw [UF.find]
    show UF.findAux p' p'.length i = _
    rw [hlen] at heq ⊢
    rw [heq, hstep]
    rfl
  · have hi' : p.length ≤ i := le_of_not_lt hi
    have h1 : (⟨p', s'⟩ : UF).find i = i := UF.find_oob (by rw [hlen]; exact hi')
    have h2 : u.find i = i := UF.find_oob hi'
    rw [h1, h2, if_neg (by omega)]

/-- How `union` rewrites the parent list (when the roots differ). -/
theorem UF.union_parent_spec {u : UF} {a b : Nat}
    (hab : u.find a ≠ u.find b) :
    ∃ w l s', (w = u.find a ∧ l = u.find b ∨ w = u.find b ∧ l = u.find a) ∧
      u.union a b = ⟨u.parent.set l w, s'⟩ ∧ s'.length = u.size.length := by
  by_cases hs : u.size.getD (u.find b) 1 ≤ u.size.getD (u.find a) 1
  · refine ⟨u.find a, u.find b,
      u.size.set (u.find a) (u.size.getD (u.find a) 1 + u.size.getD (u.find b) 1),
      Or.inl ⟨rfl, rfl⟩, ?_, List.length_set ..⟩
    rw [UF.union, if_neg hab, if_pos hs]
  · refine ⟨u.find b, u.find a,
      u.size.set (u.find b) (u.size.getD (u.find a) 1 + u.size.getD (u.find b) 1),
      Or.inr ⟨rfl, rfl⟩, ?_, List.length_set ..⟩
    rw [UF.union, if_neg hab, if_neg hs]

theorem UF.union_self {u : UF} {a b : Nat} (hab : u.find a = u.find b) :
    u.union a b = u := by
  rw [UF.union, if_pos hab]

theorem UF.union_parent_length (u : UF) (a b : Nat) :
    (u.union a b).parent.length = u.parent.length := by
  by_cases hab : u.find a = u.find b
  · rw [UF.union_self hab]
  · obtain ⟨w, l, s', _, hspec, _⟩ := UF.union_parent_spec hab
    rw [hspec]
    exact List.length_set ..

/-- `find` after `union`, in closed form. -/
theorem UF.find_union {u : UF} (h : u.WF) {a b : Nat}
    (ha : a < u.parent.length) (hb : b < u.parent.length) :
    ∃ w l, (w = u.find a ∧ l = u.find b ∨ w = u.find b ∧ l = u.find a) ∧
      ∀ i, (u.union a b).find i = if u.find i = l then w else u.find i := by
  by_cases hab : u.find a = u.find b
  · refine ⟨u.find a, u.find b, Or.inl ⟨rfl, rfl⟩, fun i => ?_⟩
    rw [UF.union_self hab]
    by_cases hc : u.find i = u.find b
    · rw [if_pos hc, hc, hab]
    · rw [if_neg hc]
  · obtain ⟨w, l, s', hwl, hspec, _⟩ := UF.union_parent_spec hab
    have hwlt : w < u.parent.length ∧ l < u.parent.length := by
      rcases hwl with ⟨hw, hl⟩ | ⟨hw, hl⟩ <;>
        exact ⟨by rw [hw]; first | exact UF.find_lt h ha | exact UF.find_lt h hb,
          by rw [hl]; first | exact UF.find_lt h ha | exact UF.find_lt h hb⟩
    have hwr : UF.IsRoot u.parent w := by
      rcases hwl with ⟨hw, _⟩ | ⟨hw, _⟩ <;> rw [hw] <;> exact h.rooted_all _
    have hlr : UF.IsRoot u.parent l := by
      rcases hwl with ⟨_, hl⟩ | ⟨_, hl⟩ <;> rw [hl] <;> exact h.rooted_all _
    have hne : w ≠ l := by
      rcases hwl with ⟨hw, hl⟩ | ⟨hw, hl⟩ <;> rw [hw, hl] <;>
        first | exact hab | exact Ne.symm hab
    refine ⟨w, l, hwl, fun i => ?_⟩
    rw [hspec]
    exact UF.link_find h hwlt.1 hwlt.2 hwr hlr hne s' i

/-- `union` preserves well-formedness. -/
theorem UF.wf_union {u : UF} (h : u.WF) {a b : Nat}
    (ha : a < u.parent.length) (hb : b < u.parent.length) : (u.union a b).WF := by
  by_cases hab : u.find a = u.find b
  · rw [UF.union_self hab]; exact h
  · obtain ⟨w, l, s', hwl, hspec, hs'len⟩ := UF.union_parent_spec hab
    have hwlt : w < u.parent.length ∧ l < u.parent.length := by
      rcases hwl with ⟨hw, hl⟩ | ⟨hw, hl⟩ <;>
        exact ⟨by rw [hw]; first | exact UF.find_lt h ha | exact UF.find_lt h hb,
          by rw [hl]; first | exact UF.find_lt h ha | exact UF.find_lt h hb⟩
    have hwr : UF.IsRoot u.parent w := by
      rcases hwl with ⟨hw, _⟩ | ⟨hw, _⟩ <;> rw [hw] <;> exact h.rooted_all _
    have hlr : UF.IsRoot u.parent l := by
      rcases hwl with ⟨_, hl⟩ | ⟨_, hl⟩ <;> rw [hl] <;> exact h.rooted_all _
    have hne : w ≠ l := by
      rcases hwl with ⟨hw, hl⟩ | ⟨hw, hl⟩ <;> rw [hw, hl] <;>
        first | exact hab | exact Ne.symm hab
    -- the three WF fields for the relinked forest
    have hlen : (u.parent.set l w).length = u.parent.length := List.length_set ..
    have hfind := UF.link_find h hwlt.1 hwlt.2 hwr hlr hne s'
    rw [hspec]
    refine ⟨?_, ?_, ?_⟩
    · show s'.length = (u.parent.set l w).length
      rw [hs'len, hlen, h.szLen]
    · intro j hj
      rw [hlen] at hj ⊢
      by_cases hjl : j = l
      · rw [hjl, UF.getD_set_self hwlt.2]; exact hwlt.1
      · rw [UF.getD_set_ne (Ne.symm hjl)]; exact h.parentLt j hj
    · intro i hi
      rw [hfind i]
      by_cases hc : u.find i = l
      · rw [if_pos hc, UF.IsRoot, UF.getD_set_ne (Ne.symm hne)]; exact hwr
      · rw [if_neg hc, UF.IsRoot, UF.getD_set_ne (Ne.symm hc)]
        exact h.rooted_all i

/-- `union` merges exactly the two argument classes. -/
theorem UF.equiv_union {u : UF} (h : u.WF) {a b : Nat}
    (ha : a < u.parent.length) (hb : b < u.parent.length) (i j : Nat) :
    (u.union a b).Equiv i j ↔
      (u.Equiv i j ∨ (u.Equiv i a ∧ u.Equiv b j) ∨ (u.Equiv i b ∧ u.Equiv a j)) := by
  obtain ⟨w, l, hwl, hf⟩ := UF.find_union h ha hb
  simp only [UF.Equiv]
  rw [hf i, hf j]
  rcases hwl with ⟨hw, hl⟩ | ⟨hw, hl⟩ <;> rw [hw, hl] <;> split_ifs <;> omega

/-- Fold a list of union operations. -/
def UF.unionList (u : UF) (L : List (Nat × Nat)) : UF :=
  L.foldl (fun uu pr => uu.union pr.1 pr.2) u

/-- Flattening the equivalence closure of an equivalence closure. -/
theorem eqvGen_flatten {α : Type} {r : α → α → Prop} {x y : α}
    (h : Relation.EqvGen (Relation.EqvGen r) x y) : Relation.EqvGen r x y := by
  induction h with
  | rel _ _ h => exact h
  | refl => exact Relation.EqvGen.refl _
  | symm _ _ _ ih => exact Relation.EqvGen.symm _ _ ih
  | trans _ _ _ _ _ ih1 ih2 => exact Relation.EqvGen.trans _ _ _ ih1 ih2

/-- Two relations with interchangeable generators generate the same
equivalence. -/
theorem eqvGen_congr {α : Type} {r s : α → α → Prop}
    (h₁ : ∀ x y, r x y → Relation.EqvGen s x y)
    (h₂ : ∀ x y, s x y → Relation.EqvGen r x y) (x y : α) :
    Relation.EqvGen r x y ↔ Relation.EqvGen s x y :=
  ⟨fun h => eqvGen_flatten (h.mono h₁), fun h => eqvGen_flatten (h.mono h₂)⟩

/-- The closure of an empty relation is equality. -/
theorem eqvGen_empty {α : Type} {r : α → α → Prop} (hr : ∀ x y, ¬ r x y) {x y : α} :
    Relation.EqvGen r x y ↔ x = y := by
  constructor
  · intro h
    induction h with
    | rel a b h => exact absurd h (hr a b)
    | refl => rfl
    | symm _ _ _ ih => exact ih.symm
    | trans _ _ _ _ _ ih1 ih2 => exact ih1.trans ih2
  · rintro rfl
    exact Relation.EqvGen.refl _

/-- Main union-find theorem: after folding a bounded list of unions,
`find`-equality is the equivalence closure of the initial equality
joined with the union pairs. -/
theorem UF.unionList_spec {L : List (Nat × Nat)} {u : UF} (h : u.WF)
    (hL : ∀ pr ∈ L, pr.1 < u.parent.length ∧ pr.2 < u.parent.length) :
    (UF.unionList u L).WF ∧
      (UF.unionList u L).parent.length = u.parent.length ∧
      ∀ i j, (UF.unionList u L).Equiv i j ↔
        Relation.EqvGen (fun x y => u.Equiv x y ∨ (x, y) ∈ L) i j := by
  induction L generalizing u with
  | nil =>
    refine ⟨h, rfl, fun i j => ?_⟩
    constructor
    · intro hij
      exact Relation.EqvGen.rel _ _ (Or.inl hij)
    · intro hij
      induction hij with
      | rel a b hab => rcases hab with hab | hab
                       · exact hab
                       · simp at hab
      | refl => rfl
      | symm _ _ _ ih => exact ih.symm
      | trans _ _ _ _ _ ih1 ih2 => exact ih1.trans ih2
  | cons pr L ih =>
    obtain ⟨a, b⟩ := pr
    have ha : a < u.parent.length := (hL (a, b) (List.mem_cons_self ..)).1
    have hb : b < u.parent.length := (hL (a, b) (List.mem_cons_self ..)).2
    have hwf' : (u.union a b).WF := UF.wf_union h ha hb
    have hlen' : (u.union a b).parent.length = u.parent.length :=
      UF.union_parent_length ..
    have hL' : ∀ pr ∈ L, pr.1 < (u.union a b).parent.length ∧
        pr.2 < (u.union a b).parent.length := by
      intro pr hpr
      rw [hlen']
      exact hL pr (List.mem_cons_of_mem _ hpr)
    obtain ⟨hwf'', hlen'', hiff⟩ := ih hwf' hL'
    have hstep : UF.unionList u ((a, b) :: L) = UF.unionList (u.union a b) L := rfl
    refine ⟨hstep ▸ hwf'', by rw [hstep, hlen'', hlen'], fun i j => ?_⟩
    rw [hstep, hiff i j]
    refine eqvGen_congr ?_ ?_ i j
    · intro x y hxy
      rcases hxy with hxy | hxy
      · rcases (UF.equiv_union h ha hb x y).mp hxy with hc | ⟨hc1, hc2⟩ | ⟨hc1, hc2⟩
        · exact Relation.EqvGen.rel _ _ (Or.inl hc)
        · exact Relation.EqvGen.trans _ _ _
            (Relation.EqvGen.rel _ _ (Or.inl hc1))
            (Relation.EqvGen.trans _ _ _
              (Relation.EqvGen.rel _ _ (Or.inr (List.mem_cons_self ..)))
              (Relation.EqvGen.rel _ _ (Or.inl hc2)))
        · exact Relation.EqvGen.trans _ _ _
            (Relation.EqvGen.rel _ _ (Or.inl hc1))
            (Relation.EqvGen.trans _ _ _
              (Relation.EqvGen.symm _ _
                (Relation.EqvGen.rel _ _ (Or.inr (List.mem_cons_self ..))))
              (Relation.EqvGen.rel _ _ (Or.inl hc2)))
      · exact Relation.EqvGen.rel _ _ (Or.inr (List.mem_cons_of_mem _ hxy))
    · intro x y hxy
      rcases hxy with hxy | hxy
      · exact Relation.EqvGen.rel _ _
          (Or.inl ((UF.equiv_union h ha hb x y).mpr (Or.inl hxy)))
      · rcases List.mem_cons.mp hxy with hxy | hxy
        · have hxa : x = a := congrArg Prod.fst hxy
          have hyb : y = b := congrArg Prod.snd hxy
          subst hxa hyb
          exact Relation.EqvGen.rel _ _
            (Or.inl ((UF.equiv_union h ha hb x y).mpr
              (Or.inr (Or.inl ⟨rfl, rfl⟩))))
        · exact Relation.EqvGen.rel _ _ (Or.inr hxy)

/-!
## Board-level connectivity machinery

The goal of this section is the invariant relating the incremental
forests to stone connectivity, needed for the winner-restoration claim
about `undo`.  All of it is developed for SQUARE boards: the source's
linearisation `y * dims.y + x` is injective and in range exactly when
the board is square (see the C2/C5/C6 claims for what goes wrong on
non-square boards).
-/

/-- Frame: `update_groups` touches only the forests. -/
theorem Board.update_groups_frame (b : Board) (p : Pos) :
    (b.update_groups p).dims = b.dims ∧ (b.update_groups p).colors = b.colors ∧
    (b.update_groups p).empty_cells = b.empty_cells ∧
    (b.update_groups p).to_play = b.to_play ∧
    (b.update_groups p).last_move = b.last_move ∧
    (b.update_groups p).winner = b.winner := by
  rw [Board.update_groups]
  cases hg : b.get p with
  | none => exact ⟨rfl, rfl, rfl, rfl, rfl, rfl⟩
  | some val =>
    cases hi : b.idx_of p with
    | none => exact ⟨rfl, rfl, rfl, rfl, rfl, rfl⟩
    | some idx => cases val <;> exact ⟨rfl, rfl, rfl, rfl, rfl, rfl⟩

/-- Frame: `update_winner` touches only `winner`. -/
theorem Board.update_winner_frame (b : Board) :
    (b.update_winner).dims = b.dims ∧ (b.update_winner).colors = b.colors ∧
    (b.update_winner).empty_cells = b.empty_cells ∧
    (b.update_winner).to_play = b.to_play ∧
    (b.update_winner).last_move = b.last_move ∧
    (b.update_winner).groupsB = b.groupsB ∧ (b.update_winner).groupsW = b.groupsW :=
  ⟨rfl, rfl, rfl, rfl, rfl, rfl, rfl⟩

/-- `get` depends only on the dimensions and the two bitmaps. -/
theorem Board.get_congr {b₁ b₂ : Board} (hd : b₁.dims = b₂.dims)
    (hc : b₁.colors = b₂.colors) (he : b₁.empty_cells = b₂.empty_cells) (p : Pos) :
    b₁.get p = b₂.get p := by
  rw [Board.get, Board.get, Board.idx_of, Board.idx_of, Board.on_board, Board.on_board,
    hd, hc, he]

theorem Board.idx_of_congr {b₁ b₂ : Board} (hd : b₁.dims = b₂.dims) (p : Pos) :
    b₁.idx_of p = b₂.idx_of p := by
  rw [Board.idx_of, Board.idx_of, Board.on_board, Board.on_board, hd]

theorem Board.group_idx_congr {b₁ b₂ : Board} (hd : b₁.dims = b₂.dims) (p : Pos) :
    b₁.group_idx p = b₂.group_idx p := by
  rw [Board.group_idx, Board.group_idx, Board.idx_of_congr hd, Board.edge_idx,
    Board.edge_idx, Board.edge_idx, Board.edge_idx, hd]

theorem Board.on_board_congr {b₁ b₂ : Board} (hd : b₁.dims = b₂.dims) (p : Pos) :
    b₁.on_board p = b₂.on_board p := by
  rw [Board.on_board, Board.on_board, hd]

/-- Basic shape of a square board: square dimensions, non-negative,
bitmaps of length `area`. -/
structure CellsInv (b : Board) : Prop where
  sq : b.dims.x = b.dims.y
  nxpos : 0 ≤ b.dims.x
  colorsLen : b.colors.length = b.dims.area
  emptyLen : b.empty_cells.length = b.dims.area

theorem Board.on_board_iff {b : Board} {p : Pos} :
    b.on_board p = true ↔ 0 ≤ p.x ∧ 0 ≤ p.y ∧ p.x < b.dims.x ∧ p.y < b.dims.y := by
  rw [Board.on_board]
  simp only [Bool.and_eq_true, decide_eq_true_eq]
  tauto

theorem Board.idx_of_eq_some {b : Board} {p : Pos} {i : Nat} (h : b.idx_of p = some i) :
    b.on_board p = true ∧ i = p.y.toNat * b.dims.y.toNat + p.x.toNat := by
  rw [Board.idx_of] at h
  by_cases hb : b.on_board p
  · rw [if_pos hb] at h
    exact ⟨hb, (Option.some.inj h).symm⟩
  · rw [if_neg hb] at h
    exact absurd h (by simp)

/-- On a square board the linearised index is below `area`. -/
theorem CellsInv.idx_lt_area {b : Board} (hc : CellsInv b) {p : Pos} {i : Nat}
    (h : b.idx_of p = some i) : i < b.dims.area := by
  obtain ⟨hob, hi⟩ := Board.idx_of_eq_some h
  obtain ⟨hx0, hy0, hx, hy⟩ := Board.on_board_iff.mp hob
  have hsq := hc.sq
  have hd0 : 0 ≤ b.dims.y := by omega
  have hxlt : p.x.toNat < b.dims.y.toNat := by omega
  have hylt : p.y.toNat < b.dims.y.toNat := by omega
  have harea : b.dims.area = b.dims.y.toNat * b.dims.y.toNat := by
    rw [Pos.area, hsq]
  rw [harea, hi]
  calc p.y.toNat * b.dims.y.toNat + p.x.toNat
      < p.y.toNat * b.dims.y.toNat + b.dims.y.toNat := by omega
    _ = (p.y.toNat + 1) * b.dims.y.toNat := by ring
    _ ≤ b.dims.y.toNat * b.dims.y.toNat := Nat.mul_le_mul_right _ (by omega)

/-- Division/remainder uniqueness for the linearised index. -/
theorem linear_idx_unique {d x1 x2 y1 y2 : Nat} (h1 : x1 < d) (h2 : x2 < d)
    (heq : y1 * d + x1 = y2 * d + x2) : y1 = y2 ∧ x1 = x2 := by
  have e1 : (x1 + y1 * d) % d = x1 := by
    rw [Nat.add_mul_mod_self_right, Nat.mod_eq_of_lt h1]
  have e2 : (x2 + y2 * d) % d = x2 := by
    rw [Nat.add_mul_mod_self_right, Nat.mod_eq_of_lt h2]
  have e3 : (x1 + y1 * d) = (x2 + y2 * d) := by omega
  have ex : x1 = x2 := by rw [← e1, ← e2, e3]
  constructor
  · have hd : 0 < d := by omega
    have := Nat.eq_of_mul_eq_mul_right hd (show y1 * d = y2 * d by omega)
    exact this
  · exact ex

/-- On a square board the linearised index is injective. -/
theorem CellsInv.idx_inj {b : Board} (hc : CellsInv b) {p q : Pos} {i : Nat}
    (hp : b.idx_of p = some i) (hq : b.idx_of q = some i) : p = q := by
  obtain ⟨hobp, hip⟩ := Board.idx_of_eq_some hp
  obtain ⟨hobq, hiq⟩ := Board.idx_of_eq_some hq
  obtain ⟨hx0p, hy0p, hxp, hyp⟩ := Board.on_board_iff.mp hobp
  obtain ⟨hx0q, hy0q, hxq, hyq⟩ := Board.on_board_iff.mp hobq
  have hsq := hc.sq
  have hxp' : p.x.toNat < b.dims.y.toNat := by omega
  have hxq' : q.x.toNat < b.dims.y.toNat := by omega
  have heq : p.y.toNat * b.dims.y.toNat + p.x.toNat =
      q.y.toNat * b.dims.y.toNat + q.x.toNat := by omega
  obtain ⟨hy, hx⟩ := linear_idx_unique hxp' hxq' heq
  have hco : p.x = q.x ∧ p.y = q.y := by omega
  cases p; cases q
  simp_all

/-- `group_idx` lands below `area + 2` on a square board. -/
theorem CellsInv.group_idx_lt {b : Board} (hc : CellsInv b) {p : Pos} {k : Nat}
    (h : b.group_idx p = some k) : k < b.dims.area + 2 := by
  rw [Board.group_idx] at h
  cases hi : b.idx_of p with
  | some idx =>
    rw [hi] at h
    have h1 := hc.idx_lt_area hi
    have h2 : idx = k := Option.some.inj h
    omega
  | none =>
    rw [hi] at h
    by_cases h1 : p.x = -1 ∨ p.y = -1
    · rw [if_pos h1, Board.edge_idx] at h
      have h2 : b.dims.area + 0 = k := Option.some.inj h
      omega
    · rw [if_neg h1] at h
      by_cases h2 : p.x = b.dims.x ∨ p.y = b.dims.y
      · rw [if_pos h2, Board.edge_idx] at h
        have h3 : b.dims.area + 1 = k := Option.some.inj h
        omega
      · rw [if_neg h2] at h
        exact absurd h (by simp)

/-- List-set helpers for arbitrary element types. -/
theorem list_getD_set_self {α : Type} {l : List α} {i : Nat} {v d : α}
    (h : i < l.length) : (l.set i v).getD i d = v := by
  rw [List.getD_eq_getElem?_getD, List.getElem?_set_self h]; rfl

theorem list_getD_set_ne {α : Type} {l : List α} {i j : Nat} {v d : α}
    (h : i ≠ j) : (l.set i v).getD j d = l.getD j d := by
  rw [List.getD_eq_getElem?_getD, List.getElem?_set_ne h, ← List.getD_eq_getElem?_getD]

theorem Color.ofBool_toBool (c : Color) : Color.ofBool c.toBool = c := by
  cases c <;> rfl

/-- `get` on a cell whose bitmap index is known. -/
theorem Board.get_of_idx {b : Board} {pos : Pos} {idx : Nat}
    (hidx : b.idx_of pos = some idx) :
    b.get pos = (if b.empty_cells.getD idx false then Option.none
      else some (Color.ofBool (b.colors.getD idx false))) := by
  rw [Board.get, hidx]

/-- Writing colour `c` into index `idx` changes `get` exactly at
`pos` (square board). -/
theorem Board.get_after_place {b b' : Board} (hcell : CellsInv b) {pos : Pos} {idx : Nat}
    (hidx : b.idx_of pos = some idx) {c : Color}
    (hd : b'.dims = b.dims) (hc : b'.colors = b.colors.set idx c.toBool)
    (he : b'.empty_cells = b.empty_cells.set idx false) (q : Pos) :
    b'.get q = if q = pos then some c else b.get q := by
  have hlt : idx < b.dims.area := hcell.idx_lt_area hidx
  by_cases hq : q = pos
  · rw [if_pos hq, hq]
    have hidx' : b'.idx_of pos = some idx := by rw [Board.idx_of_congr hd]; exact hidx
    rw [Board.get_of_idx hidx', hc, he]
    rw [list_getD_set_self (by rw [hcell.emptyLen]; exact hlt)]
    rw [list_getD_set_self (by rw [hcell.colorsLen]; exact hlt)]
    rw [Color.ofBool_toBool]
    rfl
  · rw [if_neg hq]
    have hiq : b'.idx_of q = b.idx_of q := Board.idx_of_congr hd q
    cases hoq : b.idx_of q with
    | none =>
      rw [Board.get, Board.get, hiq, hoq, hd]
    | some j =>
      have hji : idx ≠ j := by
        intro he'
        exact hq (hcell.idx_inj (he' ▸ hoq) hidx)
      rw [Board.get_of_idx (hiq.trans hoq), Board.get_of_idx hoq, hc, he,
        list_getD_set_ne hji, list_getD_set_ne hji]

/-- Clearing index `idx` changes `get` exactly at `pos` (square
board). -/
theorem Board.get_after_clear {b b' : Board} (hcell : CellsInv b) {pos : Pos} {idx : Nat}
    (hidx : b.idx_of pos = some idx)
    (hd : b'.dims = b.dims) (hc : b'.colors = b.colors)
    (he : b'.empty_cells = b.empty_cells.set idx true) (q : Pos) :
    b'.get q = if q = pos then Option.none else b.get q := by
  have hlt : idx < b.dims.area := hcell.idx_lt_area hidx
  by_cases hq : q = pos
  · rw [if_pos hq, hq]
    have hidx' : b'.idx_of pos = some idx := by rw [Board.idx_of_congr hd]; exact hidx
    rw [Board.get_of_idx hidx', he]
    rw [list_getD_set_self (by rw [hcell.emptyLen]; exact hlt)]
    rfl
  · rw [if_neg hq]
    have hiq : b'.idx_of q = b.idx_of q := Board.idx_of_congr hd q
    cases hoq : b.idx_of q with
    | none =>
      rw [Board.get, Board.get, hiq, hoq, hd, hc]
    | some j =>
      have hji : idx ≠ j := by
        intro he'
        exact hq (hcell.idx_inj (he' ▸ hoq) hidx)
      rw [Board.get_of_idx (hiq.trans hoq), Board.get_of_idx hoq, hc, he,
        list_getD_set_ne hji]

/-- One union pair as issued by `update_groups`: a stone's index
against one same-coloured neighbour's node index. -/
def nodeRel (b : Board) (c : Color) (i j : Nat) : Prop :=
  ∃ p d, b.on_board p = true ∧ b.get p = some c ∧ d ∈ neighborPatterns ∧
    b.get (p + d) = some c ∧ b.idx_of p = some i ∧ b.group_idx (p + d) = some j

theorem nodeRel_congr {b₁ b₂ : Board} (hd : b₁.dims = b₂.dims)
    (hc : b₁.colors = b₂.colors) (he : b₁.empty_cells = b₂.empty_cells)
    (c : Color) (i j : Nat) : nodeRel b₁ c i j ↔ nodeRel b₂ c i j := by
  unfold nodeRel
  constructor
  · rintro ⟨p, d, h1, h2, h3, h4, h5, h6⟩
    exact ⟨p, d, (Board.on_board_congr hd p) ▸ h1, (Board.get_congr hd hc he p) ▸ h2, h3,
      (Board.get_congr hd hc he (p + d)) ▸ h4, (Board.idx_of_congr hd p) ▸ h5,
      (Board.group_idx_congr hd (p + d)) ▸ h6⟩
  · rintro ⟨p, d, h1, h2, h3, h4, h5, h6⟩
    exact ⟨p, d, (Board.on_board_congr hd p) ▸ h1, (Board.get_congr hd hc he p) ▸ h2, h3,
      (Board.get_congr hd hc he (p + d)) ▸ h4, (Board.idx_of_congr hd p) ▸ h5,
      (Board.group_idx_congr hd (p + d)) ▸ h6⟩

theorem nodeRel_bounded {b : Board} (hc : CellsInv b) {c : Color} {i j : Nat}
    (h : nodeRel b c i j) : i < b.dims.area + 2 ∧ j < b.dims.area + 2 := by
  obtain ⟨p, d, _, _, _, _, h5, h6⟩ := h
  have h7 := hc.idx_lt_area h5
  exact ⟨by omega, hc.group_idx_lt h6⟩

/-- The pairs issued by `update_groups` at `pos` for value `val` and
index `idx`. -/
def ugPairs (b : Board) (pos : Pos) (val : Color) (idx : Nat) : List (Nat × Nat) :=
  neighborPatterns.filterMap (fun pat =>
    if b.get (pos + pat) = some val then
      (b.group_idx (pos + pat)).map (fun k => (idx, k))
    else Option.none)

theorem Board.foldl_ugStep (b : Board) (pos : Pos) (val : Color) (idx : Nat)
    (l : List Pos) (u : UF) :
    l.foldl (b.ugStep pos val idx) u = UF.unionList u (l.filterMap (fun pat =>
      if b.get (pos + pat) = some val then
        (b.group_idx (pos + pat)).map (fun k => (idx, k))
      else Option.none)) := by
  induction l generalizing u with
  | nil => rfl
  | cons pat l ih =>
    rw [List.foldl_cons, List.filterMap_cons]
    by_cases hg : b.get (pos + pat) = some val
    · cases hk : b.group_idx (pos + pat) with
      | none =>
        have hstep : b.ugStep pos val idx u pat = u := by
          rw [Board.ugStep, if_pos hg, hk]
        rw [hstep]
        simp only [if_pos hg, hk, Option.map_none']
        exact ih u
      | some k =>
        have hstep : b.ugStep pos val idx u pat = u.union idx k := by
          rw [Board.ugStep, if_pos hg, hk]
        rw [hstep]
        simp only [if_pos hg, hk, Option.map_some']
        exact ih (u.union idx k)
    · have hstep : b.ugStep pos val idx u pat = u := by
        rw [Board.ugStep, if_neg hg]
      rw [hstep]
      simp only [if_neg hg]
      exact ih u

/-- `update_groups` in closed form. -/
theorem Board.update_groups_eq {b : Board} {pos : Pos} {val : Color} {idx : Nat}
    (hget : b.get pos = some val) (hidx : b.idx_of pos = some idx) :
    b.update_groups pos = b.setGroups val
      (UF.unionList (b.groups val) (ugPairs b pos val idx)) := by
  rw [Board.update_groups]
  simp only [hget, hidx]
  rw [Board.foldl_ugStep]
  rfl

/-!
## The connectivity invariant
-/

/-- Invariant without the winner clauses: both forests are
well-formed, sized `area + 2`, and their `find`-equality is the
closure of the stone adjacency pairs. -/
structure PreInv (b : Board) : Prop where
  cells : CellsInv b
  wf : ∀ c : Color, (b.groups c).WF
  len : ∀ c : Color, (b.groups c).parent.length = b.dims.area + 2
  equivIff : ∀ c : Color, ∀ i j, i < b.dims.area + 2 → j < b.dims.area + 2 →
    ((b.groups c).Equiv i j ↔ Relation.EqvGen (nodeRel b c) i j)

/-- Full invariant: `PreInv` plus the cached winner matching
connectivity (with `update_winner`'s White-over-Black overwrite
order). -/
structure BoardInv (b : Board) : Prop where
  pre : PreInv b
  winWhite : b.winner = some Color.white ↔
    Relation.EqvGen (nodeRel b .white) b.dims.area (b.dims.area + 1)
  winBlack : b.winner = some Color.black ↔
    (Relation.EqvGen (nodeRel b .black) b.dims.area (b.dims.area + 1) ∧
     ¬ Relation.EqvGen (nodeRel b .white) b.dims.area (b.dims.area + 1))

/-- Elements related by a well-formed forest are either equal or both
in range. -/
theorem UF.equiv_bound {u : UF} (hwf : u.WF) {x y : Nat} (hxy : u.Equiv x y)
    (hne : x ≠ y) : x < u.parent.length ∧ y < u.parent.length := by
  rw [UF.Equiv] at hxy
  by_cases hx : x < u.parent.length
  · by_cases hy : y < u.parent.length
    · exact ⟨hx, hy⟩
    · exfalso
      have h1 : u.find y = y := UF.find_oob (le_of_not_lt hy)
      have h2 := UF.find_lt hwf hx
      omega
  · by_cases hy : y < u.parent.length
    · exfalso
      have h1 : u.find x = x := UF.find_oob (le_of_not_lt hx)
      have h2 := UF.find_lt hwf hy
      omega
    · exfalso
      have h1 : u.find x = x := UF.find_oob (le_of_not_lt hx)
      have h2 : u.find y = y := UF.find_oob (le_of_not_lt hy)
      exact hne (by omega)

/-- `update_winner` recomputes the cached winner from the forests;
given `PreInv` this matches the connectivity reading. -/
theorem PreInv.update_winner {b : Board} (h : PreInv b) : BoardInv b.update_winner := by
  have hframe := Board.update_winner_frame b
  obtain ⟨hd, hc, he, _, _, hgB, hgW⟩ := hframe
  have hgroups : ∀ c : Color, (b.update_winner).groups c = b.groups c := by
    intro c; cases c
    · exact hgB
    · exact hgW
  have hnr : ∀ c i j, nodeRel b.update_winner c i j ↔ nodeRel b c i j :=
    fun c i j => nodeRel_congr hd hc he c i j
  have hpre : PreInv b.update_winner := by
    refine ⟨⟨?_, ?_, ?_, ?_⟩, ?_, ?_, ?_⟩
    · rw [hd]; exact h.cells.sq
    · rw [hd]; exact h.cells.nxpos
    · rw [hd, hc]; exact h.cells.colorsLen
    · rw [hd, he]; exact h.cells.emptyLen
    · intro c; rw [hgroups c]; exact h.wf c
    · intro c; rw [hgroups c, hd]; exact h.len c
    · intro c i j hi hj
      rw [hgroups c, hd] at *
      rw [h.equivIff c i j hi hj]
      exact eqvGen_congr (fun x y hxy => Relation.EqvGen.rel _ _ ((hnr c x y).mpr hxy))
        (fun x y hxy => Relation.EqvGen.rel _ _ ((hnr c x y).mp hxy)) i j
  -- the computed winner
  have he0 : b.dims.area < b.dims.area + 2 := by omega
  have he1 : b.dims.area + 1 < b.dims.area + 2 := by omega
  have hwEq : ((b.groups .white).find (b.edge_idx 0) = (b.groups .white).find (b.edge_idx 1))
      ↔ Relation.EqvGen (nodeRel b .white) b.dims.area (b.dims.area + 1) := by
    rw [Board.edge_idx, Board.edge_idx]
    exact h.equivIff .white _ _ (by omega) (by omega)
  have hbEq : ((b.groups .black).find (b.edge_idx 0) = (b.groups .black).find (b.edge_idx 1))
      ↔ Relation.EqvGen (nodeRel b .black) b.dims.area (b.dims.area + 1) := by
    rw [Board.edge_idx, Board.edge_idx]
    exact h.equivIff .black _ _ (by omega) (by omega)
  have hwinner : (b.update_winner).winner =
      (if (b.groups .white).find (b.edge_idx 0) = (b.groups .white).find (b.edge_idx 1)
       then some Color.white
       else if (b.groups .black).find (b.edge_idx 0) = (b.groups .black).find (b.edge_idx 1)
       then some Color.black else Option.none) := rfl
  refine ⟨hpre, ?_, ?_⟩
  · rw [hwinner]
    constructor
    · intro hwin
      by_cases h1 : (b.groups .white).find (b.edge_idx 0) = (b.groups .white).find (b.edge_idx 1)
      · rw [hd]
        exact (eqvGen_congr (fun x y hxy => Relation.EqvGen.rel _ _ ((hnr .white x y).mpr hxy))
          (fun x y hxy => Relation.EqvGen.rel _ _ ((hnr .white x y).mp hxy)) _ _).mpr
          (hwEq.mp h1)
      · rw [if_neg h1] at hwin
        by_cases h2 : (b.groups .black).find (b.edge_idx 0) = (b.groups .black).find (b.edge_idx 1)
        · rw [if_pos h2] at hwin
          exact absurd hwin (by decide)
        · rw [if_neg h2] at hwin
          exact absurd hwin (by decide)
    · intro hconn
      have h1 : (b.groups .white).find (b.edge_idx 0) = (b.groups .white).find (b.edge_idx 1) := by
        rw [hd] at hconn
        exact hwEq.mpr ((eqvGen_congr
          (fun x y hxy => Relation.EqvGen.rel _ _ ((hnr .white x y).mp hxy))
          (fun x y hxy => Relation.EqvGen.rel _ _ ((hnr .white x y).mpr hxy)) _ _).mpr hconn)
      rw [if_pos h1]
  · rw [hwinner]
    constructor
    · intro hwin
      by_cases h1 : (b.groups .white).find (b.edge_idx 0) = (b.groups .white).find (b.edge_idx 1)
      · rw [if_pos h1] at hwin
        exact absurd hwin (by decide)
      · rw [if_neg h1] at hwin
        by_cases h2 : (b.groups .black).find (b.edge_idx 0) = (b.groups .black).find (b.edge_idx 1)
        · rw [hd]
          constructor
          · exact (eqvGen_congr
              (fun x y hxy => Relation.EqvGen.rel _ _ ((hnr .black x y).mpr hxy))
              (fun x y hxy => Relation.EqvGen.rel _ _ ((hnr .black x y).mp hxy)) _ _).mpr
              (hbEq.mp h2)
          · intro hcon
            exact h1 (hwEq.mpr ((eqvGen_congr
              (fun x y hxy => Relation.EqvGen.rel _ _ ((hnr .white x y).mp hxy))
              (fun x y hxy => Relation.EqvGen.rel _ _ ((hnr .white x y).mpr hxy)) _ _).mpr hcon))
        · rw [if_neg h2] at hwin
          exact absurd hwin (by decide)
    · rintro ⟨hcb, hcw⟩
      rw [hd] at hcb hcw
      have h1 : ¬ ((b.groups .white).find (b.edge_idx 0) = (b.groups .white).find (b.edge_idx 1)) := by
        intro hcl
        exact hcw ((eqvGen_congr
          (fun x y hxy => Relation.EqvGen.rel _ _ ((hnr .white x y).mpr hxy))
          (fun x y hxy => Relation.EqvGen.rel _ _ ((hnr .white x y).mp hxy)) _ _).mpr
          (hwEq.mp hcl))
      have h2 : (b.groups .black).find (b.edge_idx 0) = (b.groups .black).find (b.edge_idx 1) :=
        hbEq.mpr ((eqvGen_congr
          (fun x y hxy => Relation.EqvGen.rel _ _ ((hnr .black x y).mp hxy))
          (fun x y hxy => Relation.EqvGen.rel _ _ ((hnr .black x y).mpr hxy)) _ _).mpr hcb)
      rw [if_neg h1, if_pos h2]

theorem Board.setGroups_groups (b : Board) (c c' : Color) (u : UF) :
    (b.setGroups c u).groups c' = if c' = c then u else b.groups c' := by
  cases c <;> cases c' <;> rfl

theorem Board.setGroups_frame (b : Board) (c : Color) (u : UF) :
    (b.setGroups c u).dims = b.dims ∧ (b.setGroups c u).colors = b.colors ∧
    (b.setGroups c u).empty_cells = b.empty_cells ∧
    (b.setGroups c u).winner = b.winner := by
  cases c <;> exact ⟨rfl, rfl, rfl, rfl⟩

theorem Board.group_idx_of_idx {b : Board} {p : Pos} {i : Nat}
    (h : b.idx_of p = some i) : b.group_idx p = some i := by
  rw [Board.group_idx]
  simp only [h]

theorem Board.on_board_of_idx {b : Board} {p : Pos} {i : Nat}
    (h : b.idx_of p = some i) : b.on_board p = true :=
  (Board.idx_of_eq_some h).1

/-- The six neighbour offsets are closed under negation. -/
theorem neighborPatterns_neg : ∀ d ∈ neighborPatterns, (⟨-d.x, -d.y⟩ : Pos) ∈ neighborPatterns := by
  decide

/-- Membership in `ugPairs`, unpacked. -/
theorem mem_ugPairs {b : Board} {pos : Pos} {val : Color} {idx : Nat} {pr : Nat × Nat} :
    pr ∈ ugPairs b pos val idx ↔
      ∃ pat ∈ neighborPatterns, ∃ k, b.get (pos + pat) = some val ∧
        b.group_idx (pos + pat) = some k ∧ pr = (idx, k) := by
  rw [ugPairs, List.mem_filterMap]
  constructor
  · rintro ⟨pat, hpat, heq⟩
    by_cases hg : b.get (pos + pat) = some val
    · rw [if_pos hg] at heq
      cases hk : b.group_idx (pos + pat) with
      | none => rw [hk] at heq; exact absurd heq (by simp)
      | some k =>
        rw [hk] at heq
        simp only [Option.map_some'] at heq
        exact ⟨pat, hpat, k, hg, hk, (Option.some.inj heq).symm⟩
    · rw [if_neg hg] at heq
      exact absurd heq (by simp)
  · rintro ⟨pat, hpat, k, hg, hk, hpr⟩
    refine ⟨pat, hpat, ?_⟩
    rw [if_pos hg, hk, Option.map_some', hpr]

theorem pos_add_neg {p pos d : Pos} (h : p + d = pos) :
    pos + (⟨-d.x, -d.y⟩ : Pos) = p := by
  cases p; cases pos; cases d
  rw [Pos.add_def] at h ⊢
  simp only [Pos.mk.injEq] at h ⊢
  obtain ⟨h1, h2⟩ := h
  constructor <;> omega

/-- Placing a stone of colour `c` at an empty on-board cell and
running `update_groups` preserves the pre-invariant: the updated
forest's classes are the closure of the new board's adjacency
pairs. -/
theorem PreInv.place {b b₃ : Board} (h : PreInv b) {pos : Pos} {idx : Nat} {c : Color}
    (hidx : b.idx_of pos = some idx) (hget0 : b.get pos = Option.none)
    (hd3 : b₃.dims = b.dims) (hc3 : b₃.colors = b.colors.set idx c.toBool)
    (he3 : b₃.empty_cells = b.empty_cells.set idx false)
    (hg3 : ∀ c', b₃.groups c' = b.groups c') :
    PreInv (b₃.update_groups pos) := by
  have hcells : CellsInv b := h.cells
  have hcells3 : CellsInv b₃ := by
    refine ⟨by rw [hd3]; exact hcells.sq, by rw [hd3]; exact hcells.nxpos, ?_, ?_⟩
    · rw [hc3, List.length_set, hd3]; exact hcells.colorsLen
    · rw [he3, List.length_set, hd3]; exact hcells.emptyLen
  have hget3 : ∀ q, b₃.get q = if q = pos then some c else b.get q :=
    Board.get_after_place hcells hidx hd3 hc3 he3
  have hget3pos : b₃.get pos = some c := by rw [hget3 pos, if_pos rfl]
  have hidx3 : b₃.idx_of pos = some idx := by
    rw [Board.idx_of_congr hd3]; exact hidx
  have hug : b₃.update_groups pos = b₃.setGroups c
      (UF.unionList (b₃.groups c) (ugPairs b₃ pos c idx)) :=
    Board.update_groups_eq hget3pos hidx3
  obtain ⟨hfd, hfc, hfe, _, _, _⟩ := Board.update_groups_frame b₃ pos
  set b₄ := b₃.update_groups pos with hb4
  have hd4 : b₄.dims = b.dims := by rw [hfd, hd3]
  have hd43 : b₄.dims = b₃.dims := hfd
  have hget4 : ∀ q, b₄.get q = b₃.get q := fun q => Board.get_congr hfd hfc hfe q
  have hcells4 : CellsInv b₄ := by
    refine ⟨by rw [hd43]; exact hcells3.sq, by rw [hd43]; exact hcells3.nxpos, ?_, ?_⟩
    · rw [hfc, hd43]; exact hcells3.colorsLen
    · rw [hfe, hd43]; exact hcells3.emptyLen
  set L := ugPairs b₃ pos c idx with hLdef
  have hidxlt : idx < b.dims.area := hcells.idx_lt_area hidx
  have harea3 : b₃.dims.area = b.dims.area := by rw [hd3]
  have hLb : ∀ pr ∈ L, pr.1 < (b.groups c).parent.length ∧
      pr.2 < (b.groups c).parent.length := by
    intro pr hpr
    rw [h.len c]
    obtain ⟨pat, hpat, k, hg, hk, hpr'⟩ := mem_ugPairs.mp hpr
    have hkb : k < b₃.dims.area + 2 := hcells3.group_idx_lt hk
    rw [harea3] at hkb
    rw [hpr']
    exact ⟨by omega, hkb⟩
  obtain ⟨hwf4, hlen4, hiff4⟩ := UF.unionList_spec (h.wf c) hLb
  have hg4c : b₄.groups c = UF.unionList (b.groups c) L := by
    rw [hug, Board.setGroups_groups, if_pos rfl, hg3 c]
  have hg4ne : ∀ c', c' ≠ c → b₄.groups c' = b.groups c' := by
    intro c' hcc
    rw [hug, Board.setGroups_groups, if_neg hcc, hg3 c']
  refine ⟨hcells4, ?_, ?_, ?_⟩
  · intro c'
    by_cases hcc : c' = c
    · rw [hcc, hg4c]; exact hwf4
    · rw [hg4ne c' hcc]; exact h.wf c'
  · intro c'
    by_cases hcc : c' = c
    · rw [hcc, hg4c, hlen4, h.len c, hd4]
    · rw [hg4ne c' hcc, hd4]; exact h.len c'
  · intro c' i j hi hj
    rw [hd4] at hi hj
    by_cases hcc : c' = c
    · subst hcc
      rw [hg4c, hiff4 i j]
      have congr1 : ∀ x y,
          Relation.EqvGen (fun x y => (b.groups c').Equiv x y ∨ (x, y) ∈ L) x y ↔
          Relation.EqvGen (fun x y => nodeRel b c' x y ∨ (x, y) ∈ L) x y := by
        refine eqvGen_congr ?_ ?_
        · intro x y hxy
          rcases hxy with hxy | hxy
          · by_cases hxyeq : x = y
            · rw [hxyeq]; exact Relation.EqvGen.refl _
            · obtain ⟨hx, hy⟩ := UF.equiv_bound (h.wf c') hxy hxyeq
              rw [h.len c'] at hx hy
              exact ((h.equivIff c' x y hx hy).mp hxy).mono (fun a b hab => Or.inl hab)
          · exact Relation.EqvGen.rel _ _ (Or.inr hxy)
        · intro x y hxy
          rcases hxy with hxy | hxy
          · obtain ⟨hx, hy⟩ := nodeRel_bounded hcells hxy
            exact Relation.EqvGen.rel _ _
              (Or.inl ((h.equivIff c' x y hx hy).mpr (Relation.EqvGen.rel _ _ hxy)))
          · exact Relation.EqvGen.rel _ _ (Or.inr hxy)
      have congr2 : ∀ x y,
          Relation.EqvGen (fun x y => nodeRel b c' x y ∨ (x, y) ∈ L) x y ↔
          Relation.EqvGen (nodeRel b₄ c') x y := by
        refine eqvGen_congr ?_ ?_
        · intro x y hxy
          rcases hxy with hxy | hxy
          · obtain ⟨p, d, hob, hp, hdmem, hpd, hip, hgp⟩ := hxy
            have hppos : p ≠ pos := by
              intro hc'
              rw [hc', hget0] at hp
              simp at hp
            have hpdpos : p + d ≠ pos := by
              intro hc'
              rw [hc', hget0] at hpd
              simp at hpd
            refine Relation.EqvGen.rel _ _ ⟨p, d, ?_, ?_, hdmem, ?_, ?_, ?_⟩
            · rw [Board.on_board_congr hd4]; exact hob
            · rw [hget4 p, hget3 p, if_neg hppos]; exact hp
            · rw [hget4 (p + d), hget3 (p + d), if_neg hpdpos]; exact hpd
            · rw [Board.idx_of_congr hd4]; exact hip
            · rw [Board.group_idx_congr hd4]; exact hgp
          · obtain ⟨pat, hpat, k, hgc, hk, hpr⟩ := mem_ugPairs.mp hxy
            have hx : x = idx := congrArg Prod.fst hpr
            have hy : y = k := congrArg Prod.snd hpr
            refine Relation.EqvGen.rel _ _ ⟨pos, pat, ?_, ?_, hpat, ?_, ?_, ?_⟩
            · rw [Board.on_board_congr hd4]; exact Board.on_board_of_idx hidx
            · rw [hget4 pos]; exact hget3pos
            · rw [hget4 (pos + pat)]; exact hgc
            · rw [Board.idx_of_congr hd4, hx]; exact hidx
            · rw [Board.group_idx_congr hd43, hy]; exact hk
        · intro x y hxy
          obtain ⟨p, d, hob4, hp4, hdmem, hpd4, hip4, hgp4⟩ := hxy
          have hp3 : b₃.get p = some c' := by rw [← hget4 p]; exact hp4
          have hpd3 : b₃.get (p + d) = some c' := by rw [← hget4 (p + d)]; exact hpd4
          have hip3 : b₃.idx_of p = some x := by
            rw [← Board.idx_of_congr hd43]; exact hip4
          have hgp3 : b₃.group_idx (p + d) = some y := by
            rw [← Board.group_idx_congr hd43]; exact hgp4
          have hipb : b.idx_of p = some x := by
            rw [← Board.idx_of_congr hd3]; exact hip3
          have hgpb : b.group_idx (p + d) = some y := by
            rw [← Board.group_idx_congr hd3]; exact hgp3
          by_cases hpp : p = pos
          · have hx : x = idx := by
              rw [hpp] at hipb
              exact Option.some.inj (hipb.symm.trans hidx)
            have hmem : (x, y) ∈ L := by
              refine mem_ugPairs.mpr ⟨d, hdmem, y, ?_, ?_, by rw [hx]⟩
              · rw [← hpp]; exact hpd3
              · rw [← hpp]; exact hgp3
            exact Relation.EqvGen.rel _ _ (Or.inr hmem)
          · by_cases hpdp : p + d = pos
            · have hy : y = idx := by
                rw [hpdp] at hgpb
                exact Option.some.inj (hgpb.symm.trans (Board.group_idx_of_idx hidx))
              have hnd := neighborPatterns_neg d hdmem
              have hposp : pos + (⟨-d.x, -d.y⟩ : Pos) = p := pos_add_neg hpdp
              have hmem : (idx, x) ∈ L := by
                refine mem_ugPairs.mpr ⟨⟨-d.x, -d.y⟩, hnd, x, ?_, ?_, rfl⟩
                · rw [hposp]; exact hp3
                · rw [hposp]; exact Board.group_idx_of_idx hip3
              rw [hy]
              exact Relation.EqvGen.symm _ _ (Relation.EqvGen.rel _ _ (Or.inr hmem))
            · have hpb : b.get p = some c' := by
                have := hget3 p
                rw [if_neg hpp] at this
                rw [← this]; exact hp3
              have hpdb : b.get (p + d) = some c' := by
                have := hget3 (p + d)
                rw [if_neg hpdp] at this
                rw [← this]; exact hpd3
              have hobb : b.on_board p = true := Board.on_board_of_idx hipb
              exact Relation.EqvGen.rel _ _
                (Or.inl ⟨p, d, hobb, hpb, hdmem, hpdb, hipb, hgpb⟩)
      exact Iff.trans (congr1 i j) (congr2 i j)
    · rw [hg4ne c' hcc, h.equivIff c' i j hi hj]
      refine eqvGen_congr ?_ ?_ i j
      · intro x y hxy
        obtain ⟨p, d, hob, hp, hdmem, hpd, hip, hgp⟩ := hxy
        have hppos : p ≠ pos := by
          intro hc'
          rw [hc', hget0] at hp
          simp at hp
        have hpdpos : p + d ≠ pos := by
          intro hc'
          rw [hc', hget0] at hpd
          simp at hpd
        refine Relation.EqvGen.rel _ _ ⟨p, d, ?_, ?_, hdmem, ?_, ?_, ?_⟩
        · rw [Board.on_board_congr hd4]; exact hob
        · rw [hget4 p, hget3 p, if_neg hppos]; exact hp
        · rw [hget4 (p + d), hget3 (p + d), if_neg hpdpos]; exact hpd
        · rw [Board.idx_of_congr hd4]; exact hip
        · rw [Board.group_idx_congr hd4]; exact hgp
      · intro x y hxy
        obtain ⟨p, d, hob4, hp4, hdmem, hpd4, hip4, hgp4⟩ := hxy
        have hp3 : b₃.get p = some c' := by rw [← hget4 p]; exact hp4
        have hpd3 : b₃.get (p + d) = some c' := by rw [← hget4 (p + d)]; exact hpd4
        have hppos : p ≠ pos := by
          intro hc'
          rw [hc'] at hp3
          rw [hget3pos] at hp3
          exact hcc (Option.some.inj hp3).symm
        have hpdpos : p + d ≠ pos := by
          intro hc'
          rw [hc'] at hpd3
          rw [hget3pos] at hpd3
          exact hcc (Option.some.inj hpd3).symm
        have hpb : b.get p = some c' := by
          have := hget3 p
          rw [if_neg hppos] at this
          rw [← this]; exact hp3
        have hpdb : b.get (p + d) = some c' := by
          have := hget3 (p + d)
          rw [if_neg hpdpos] at this
          rw [← this]; exact hpd3
        have hipb : b.idx_of p = some x := by
          rw [← Board.idx_of_congr hd3, ← Board.idx_of_congr hd43]; exact hip4
        have hgpb : b.group_idx (p + d) = some y := by
          rw [← Board.group_idx_congr hd3, ← Board.group_idx_congr hd43]; exact hgp4
        exact Relation.EqvGen.rel _ _
          ⟨p, d, Board.on_board_of_idx hipb, hpb, hdmem, hpdb, hipb, hgpb⟩

/-!
## Rebuilding the forests from scratch
-/

theorem foldl_flatten {α β : Type} (f : β → α → β) (L : List (List α)) (b : β) :
    L.flatten.foldl f b = L.foldl (fun b l => l.foldl f b) b := by
  induction L generalizing b with
  | nil => rfl
  | cons l L ih =>
    rw [List.flatten_cons, List.foldl_append, List.foldl_cons, ih]

/-- The cells visited by `rebuild_groups`, in visit order. -/
def cellsOf (b : Board) : List Pos :=
  ((List.range b.dims.x.toNat).map (fun x =>
    (List.range b.dims.y.toNat).map (fun y => (⟨Int.ofNat x, Int.ofNat y⟩ : Pos)))).flatten

theorem nested_fold_eq (X Y : List Nat) (b : Board) :
    X.foldl (fun bb x => Y.foldl (fun bbb y =>
        bbb.update_groups ⟨Int.ofNat x, Int.ofNat y⟩) bb) b
    = ((X.map (fun x => Y.map (fun y => (⟨Int.ofNat x, Int.ofNat y⟩ : Pos)))).flatten).foldl
        (fun (x : Board) q => x.update_groups q) b := by
  induction X generalizing b with
  | nil => rfl
  | cons x X ih =>
    rw [List.foldl_cons, List.map_cons, List.flatten_cons, List.foldl_append, ih]
    congr 1
    rw [List.foldl_map]

/-- `rebuild_groups` as one flat fold over `cellsOf`. -/
theorem Board.rebuild_groups_eq (b : Board) :
    b.rebuild_groups =
      ((cellsOf b).foldl (fun (x : Board) q => x.update_groups q)
        { b with groupsB := UF.new (b.dims.area + 2),
                 groupsW := UF.new (b.dims.area + 2) }).update_winner := by
  rw [Board.rebuild_groups, cellsOf, nested_fold_eq]

/-- Adjacency pairs restricted to stones in the processed cell list. -/
def nodeRelOn (b : Board) (S : List Pos) (c : Color) (i j : Nat) : Prop :=
  ∃ p d, p ∈ S ∧ b.on_board p = true ∧ b.get p = some c ∧ d ∈ neighborPatterns ∧
    b.get (p + d) = some c ∧ b.idx_of p = some i ∧ b.group_idx (p + d) = some j

/-- Invariant of the rebuild fold: the accumulator has the same cells
as `b` and its forests' classes are the closure of the pairs whose
stone lies in the processed list `S`. -/
structure FoldInv (b : Board) (S : List Pos) (bb : Board) : Prop where
  hd : bb.dims = b.dims
  hc : bb.colors = b.colors
  he : bb.empty_cells = b.empty_cells
  wf : ∀ c : Color, (bb.groups c).WF
  len : ∀ c : Color, (bb.groups c).parent.length = b.dims.area + 2
  iff : ∀ c : Color, ∀ i j, i < b.dims.area + 2 → j < b.dims.area + 2 →
    ((bb.groups c).Equiv i j ↔ Relation.EqvGen (nodeRelOn b S c) i j)

theorem Board.update_groups_of_get_none {b : Board} {q : Pos}
    (h : b.get q = Option.none) : b.update_groups q = b := by
  rw [Board.update_groups]
  simp only [h]

theorem Board.exists_idx_of_onboard {b : Board} {q : Pos} (h : b.on_board q = true) :
    ∃ i, b.idx_of q = some i := by
  rw [Board.idx_of, if_pos h]
  exact ⟨_, rfl⟩

theorem FoldInv.step {b : Board} (hcell : CellsInv b) {S : List Pos} {bb : Board}
    (hf : FoldInv b S bb) {q : Pos} (hob : b.on_board q = true) :
    FoldInv b (S ++ [q]) (bb.update_groups q) := by
  have hgetbb : ∀ r, bb.get r = b.get r := fun r => Board.get_congr hf.hd hf.hc hf.he r
  have hcellsbb : CellsInv bb := by
    refine ⟨by rw [hf.hd]; exact hcell.sq, by rw [hf.hd]; exact hcell.nxpos, ?_, ?_⟩
    · rw [hf.hc, hf.hd]; exact hcell.colorsLen
    · rw [hf.he, hf.hd]; exact hcell.emptyLen
  have hmemS : ∀ p, p ∈ S ++ [q] ↔ (p ∈ S ∨ p = q) := by
    intro p
    rw [List.mem_append, List.mem_singleton]
  cases hbq : b.get q with
  | none =>
    have hstay : bb.update_groups q = bb :=
      Board.update_groups_of_get_none (by rw [hgetbb q]; exact hbq)
    rw [hstay]
    refine ⟨hf.hd, hf.hc, hf.he, hf.wf, hf.len, ?_⟩
    intro c i j hi hj
    rw [hf.iff c i j hi hj]
    refine eqvGen_congr ?_ ?_ i j
    · rintro x y ⟨p, d, hmem, h1, h2, h3, h4, h5, h6⟩
      exact Relation.EqvGen.rel _ _
        ⟨p, d, (hmemS p).mpr (Or.inl hmem), h1, h2, h3, h4, h5, h6⟩
    · rintro x y ⟨p, d, hmem, h1, h2, h3, h4, h5, h6⟩
      rcases (hmemS p).mp hmem with hmem | hmem
      · exact Relation.EqvGen.rel _ _ ⟨p, d, hmem, h1, h2, h3, h4, h5, h6⟩
      · rw [hmem, hbq] at h2
        exact absurd h2 (by simp)
  | some val =>
    obtain ⟨idx, hidx⟩ := Board.exists_idx_of_onboard hob
    have hidxbb : bb.idx_of q = some idx := by
      rw [Board.idx_of_congr hf.hd]; exact hidx
    have hbbq : bb.get q = some val := by rw [hgetbb q]; exact hbq
    have hug : bb.update_groups q = bb.setGroups val
        (UF.unionList (bb.groups val) (ugPairs bb q val idx)) :=
      Board.update_groups_eq hbbq hidxbb
    set L := ugPairs bb q val idx with hLdef
    have hidxlt : idx < b.dims.area := hcell.idx_lt_area hidx
    have hareabb : bb.dims.area = b.dims.area := by rw [hf.hd]
    have hLb : ∀ pr ∈ L, pr.1 < (bb.groups val).parent.length ∧
        pr.2 < (bb.groups val).parent.length := by
      intro pr hpr
      rw [hf.len val]
      obtain ⟨pat, hpat, k, hg, hk, hpr'⟩ := mem_ugPairs.mp hpr
      have hkb : k < bb.dims.area + 2 := hcellsbb.group_idx_lt hk
      rw [hareabb] at hkb
      rw [hpr']
      exact ⟨by omega, hkb⟩
    obtain ⟨hwf4, hlen4, hiff4⟩ := UF.unionList_spec (hf.wf val) hLb
    obtain ⟨hsd, hsc, hse, _⟩ := Board.setGroups_frame bb val
        (UF.unionList (bb.groups val) L)
    have hg4 : ∀ c', (bb.update_groups q).groups c' =
        if c' = val then UF.unionList (bb.groups val) L else bb.groups c' := by
      intro c'
      rw [hug, Board.setGroups_groups]
    refine ⟨?_, ?_, ?_, ?_, ?_, ?_⟩
    · rw [hug, hsd]; exact hf.hd
    · rw [hug, hsc]; exact hf.hc
    · rw [hug, hse]; exact hf.he
    · intro c'
      rw [hg4 c']
      by_cases hcc : c' = val
      · rw [if_pos hcc]; exact hwf4
      · rw [if_neg hcc]; exact hf.wf c'
    · intro c'
      rw [hg4 c']
      by_cases hcc : c' = val
      · rw [if_pos hcc, hlen4]; exact hf.len val
      · rw [if_neg hcc]; exact hf.len c'
    · intro c' i j hi hj
      rw [hg4 c']
      by_cases hcc : c' = val
      · rw [if_pos hcc, hcc, hiff4 i j]
        have congr1 : ∀ x y,
            Relation.EqvGen (fun x y => (bb.groups val).Equiv x y ∨ (x, y) ∈ L) x y ↔
            Relation.EqvGen (fun x y => nodeRelOn b S val x y ∨ (x, y) ∈ L) x y := by
          refine eqvGen_congr ?_ ?_
          · intro x y hxy
            rcases hxy with hxy | hxy
            · by_cases hxyeq : x = y
              · rw [hxyeq]; exact Relation.EqvGen.refl _
              · obtain ⟨hx, hy⟩ := UF.equiv_bound (hf.wf val) hxy hxyeq
                rw [hf.len val] at hx hy
                exact ((hf.iff val x y hx hy).mp hxy).mono (fun a b hab => Or.inl hab)
            · exact Relation.EqvGen.rel _ _ (Or.inr hxy)
          · intro x y hxy
            rcases hxy with hxy | hxy
            · have hbnd : x < b.dims.area + 2 ∧ y < b.dims.area + 2 := by
                obtain ⟨p, d, _, _, _, _, _, h5, h6⟩ := hxy
                have h7 := hcell.idx_lt_area h5
                exact ⟨by omega, hcell.group_idx_lt h6⟩
              exact Relation.EqvGen.rel _ _
                (Or.inl ((hf.iff val x y hbnd.1 hbnd.2).mpr (Relation.EqvGen.rel _ _ hxy)))
            · exact Relation.EqvGen.rel _ _ (Or.inr hxy)
        have congr2 : ∀ x y,
            Relation.EqvGen (fun x y => nodeRelOn b S val x y ∨ (x, y) ∈ L) x y ↔
            Relation.EqvGen (nodeRelOn b (S ++ [q]) val) x y := by
          refine eqvGen_congr ?_ ?_
          · intro x y hxy
            rcases hxy with hxy | hxy
            · obtain ⟨p, d, hmem, h1, h2, h3, h4, h5, h6⟩ := hxy
              exact Relation.EqvGen.rel _ _
                ⟨p, d, (hmemS p).mpr (Or.inl hmem), h1, h2, h3, h4, h5, h6⟩
            · obtain ⟨pat, hpat, k, hg, hk, hpr⟩ := mem_ugPairs.mp hxy
              have hx : x = idx := congrArg Prod.fst hpr
              have hy : y = k := congrArg Prod.snd hpr
              refine Relation.EqvGen.rel _ _
                ⟨q, pat, (hmemS q).mpr (Or.inr rfl), hob, hbq, hpat, ?_, ?_, ?_⟩
              · rw [← hgetbb (q + pat)]; exact hg
              · rw [hx]; exact hidx
              · rw [hy, ← Board.group_idx_congr hf.hd]; exact hk
          · intro x y hxy
            obtain ⟨p, d, hmem, h1, h2, h3, h4, h5, h6⟩ := hxy
            rcases (hmemS p).mp hmem with hmem | hmem
            · exact Relation.EqvGen.rel _ _
                (Or.inl ⟨p, d, hmem, h1, h2, h3, h4, h5, h6⟩)
            · have hx : x = idx := by
                rw [hmem] at h5
                exact Option.some.inj (h5.symm.trans hidx)
              have hmemL : (x, y) ∈ L := by
                refine mem_ugPairs.mpr ⟨d, h3, y, ?_, ?_, by rw [hx]⟩
                · rw [hgetbb (q + d), ← hmem]; exact h4
                · rw [Board.group_idx_congr hf.hd, ← hmem]; exact h6
              exact Relation.EqvGen.rel _ _ (Or.inr hmemL)
        exact Iff.trans (congr1 i j) (congr2 i j)
      · rw [if_neg hcc, hf.iff c' i j hi hj]
        refine eqvGen_congr ?_ ?_ i j
        · rintro x y ⟨p, d, hmem, h1, h2, h3, h4, h5, h6⟩
          exact Relation.EqvGen.rel _ _
            ⟨p, d, (hmemS p).mpr (Or.inl hmem), h1, h2, h3, h4, h5, h6⟩
        · rintro x y ⟨p, d, hmem, h1, h2, h3, h4, h5, h6⟩
          rcases (hmemS p).mp hmem with hmem | hmem
          · exact Relation.EqvGen.rel _ _ ⟨p, d, hmem, h1, h2, h3, h4, h5, h6⟩
          · rw [hmem, hbq] at h2
            exact absurd (Option.some.inj h2).symm hcc

theorem FoldInv.fold {b : Board} (hcell : CellsInv b) {S : List Pos} {bb : Board}
    (hf : FoldInv b S bb) (cells : List Pos)
    (hob : ∀ q ∈ cells, b.on_board q = true) :
    FoldInv b (S ++ cells) (cells.foldl (fun (x : Board) q => x.update_groups q) bb) := by
  induction cells generalizing S bb with
  | nil => rw [List.append_nil]; exact hf
  | cons q cs ih =>
    rw [List.foldl_cons, List.append_cons]
    exact ih (hf.step hcell (hob q (List.mem_cons_self ..)))
      (fun r hr => hob r (List.mem_cons_of_mem _ hr))

theorem mem_cellsOf {b : Board} {p : Pos} : p ∈ cellsOf b ↔ b.on_board p = true := by
  rw [cellsOf, List.mem_flatten]
  constructor
  · rintro ⟨l, hl, hp⟩
    obtain ⟨x, hx, rfl⟩ := List.mem_map.mp hl
    obtain ⟨y, hy, rfl⟩ := List.mem_map.mp hp
    rw [List.mem_range] at hx hy
    rw [Board.on_board_iff]
    dsimp only
    rw [Int.ofNat_eq_coe, Int.ofNat_eq_coe]
    refine ⟨by omega, by omega, by omega, by omega⟩
  · intro hob
    obtain ⟨hx0, hy0, hx, hy⟩ := Board.on_board_iff.mp hob
    refine ⟨(List.range b.dims.y.toNat).map
      (fun y => (⟨Int.ofNat p.x.toNat, Int.ofNat y⟩ : Pos)), ?_, ?_⟩
    · exact List.mem_map.mpr ⟨p.x.toNat, List.mem_range.mpr (by omega), rfl⟩
    · refine List.mem_map.mpr ⟨p.y.toNat, List.mem_range.mpr (by omega), ?_⟩
      have hx' : Int.ofNat p.x.toNat = p.x := by
        rw [Int.ofNat_eq_coe]; omega
      have hy' : Int.ofNat p.y.toNat = p.y := by
        rw [Int.ofNat_eq_coe]; omega
      rw [hx', hy']

theorem nodeRelOn_cellsOf {b : Board} (c : Color) (i j : Nat) :
    nodeRelOn b (cellsOf b) c i j ↔ nodeRel b c i j := by
  constructor
  · rintro ⟨p, d, _, h1, h2, h3, h4, h5, h6⟩
    exact ⟨p, d, h1, h2, h3, h4, h5, h6⟩
  · rintro ⟨p, d, h1, h2, h3, h4, h5, h6⟩
    exact ⟨p, d, mem_cellsOf.mpr h1, h1, h2, h3, h4, h5, h6⟩

theorem foldInv_fresh (b : Board) :
    FoldInv b [] { b with groupsB := UF.new (b.dims.area + 2),
                          groupsW := UF.new (b.dims.area + 2) } := by
  have hempty : ∀ (c : Color) (x y : Nat), ¬ nodeRelOn b [] c x y := by
    intro c x y hxy
    obtain ⟨p, d, hmem, _⟩ := hxy
    simp at hmem
  refine ⟨rfl, rfl, rfl, ?_, ?_, ?_⟩
  · intro c; cases c <;> exact UF.wf_new _
  · intro c; cases c <;> (show (UF.new (b.dims.area + 2)).parent.length = _) <;>
      (rw [UF.new]; exact List.length_range _)
  · intro c i j hi hj
    cases c
    · show (UF.new (b.dims.area + 2)).Equiv i j ↔ _
      rw [UF.equiv_new, eqvGen_empty (hempty .black)]
    · show (UF.new (b.dims.area + 2)).Equiv i j ↔ _
      rw [UF.equiv_new, eqvGen_empty (hempty .white)]

/-- Frame of the rebuild fold: only the forests change. -/
theorem foldl_update_groups_frame (cells : List Pos) (bb : Board) :
    (cells.foldl (fun (x : Board) q => x.update_groups q) bb).dims = bb.dims ∧
    (cells.foldl (fun (x : Board) q => x.update_groups q) bb).colors = bb.colors ∧
    (cells.foldl (fun (x : Board) q => x.update_groups q) bb).empty_cells = bb.empty_cells ∧
    (cells.foldl (fun (x : Board) q => x.update_groups q) bb).to_play = bb.to_play ∧
    (cells.foldl (fun (x : Board) q => x.update_groups q) bb).last_move = bb.last_move := by
  induction cells generalizing bb with
  | nil => exact ⟨rfl, rfl, rfl, rfl, rfl⟩
  | cons q cs ih =>
    rw [List.foldl_cons]
    obtain ⟨h1, h2, h3, h4, h5⟩ := ih (bb.update_groups q)
    obtain ⟨g1, g2, g3, g4, g5, _⟩ := Board.update_groups_frame bb q
    exact ⟨h1.trans g1, h2.trans g2, h3.trans g3, h4.trans g4, h5.trans g5⟩

/-- Frame of `rebuild_groups`: cells, `to_play` and `last_move` are
untouched. -/
theorem Board.rebuild_frame (b : Board) :
    (b.rebuild_groups).dims = b.dims ∧ (b.rebuild_groups).colors = b.colors ∧
    (b.rebuild_groups).empty_cells = b.empty_cells ∧
    (b.rebuild_groups).to_play = b.to_play ∧
    (b.rebuild_groups).last_move = b.last_move := by
  rw [Board.rebuild_groups_eq]
  obtain ⟨h1, h2, h3, h4, h5⟩ := foldl_update_groups_frame (cellsOf b)
    { b with groupsB := UF.new (b.dims.area + 2), groupsW := UF.new (b.dims.area + 2) }
  obtain ⟨w1, w2, w3, w4, w5, _, _⟩ := Board.update_winner_frame
    ((cellsOf b).foldl (fun (x : Board) q => x.update_groups q)
      { b with groupsB := UF.new (b.dims.area + 2), groupsW := UF.new (b.dims.area + 2) })
  exact ⟨w1.trans h1, w2.trans h2, w3.trans h3, w4.trans h4, w5.trans h5⟩

/-- Rebuilding from any square board establishes the full invariant. -/
theorem CellsInv.rebuild {b : Board} (hcell : CellsInv b) : BoardInv b.rebuild_groups := by
  rw [Board.rebuild_groups_eq]
  have h1 := FoldInv.fold hcell (foldInv_fresh b) (cellsOf b)
    (fun q hq => mem_cellsOf.mp hq)
  rw [List.nil_append] at h1
  have hpre : PreInv ((cellsOf b).foldl (fun (x : Board) q => x.update_groups q)
      { b with groupsB := UF.new (b.dims.area + 2),
               groupsW := UF.new (b.dims.area + 2) }) := by
    refine ⟨⟨by rw [h1.hd]; exact hcell.sq, by rw [h1.hd]; exact hcell.nxpos, ?_, ?_⟩,
      h1.wf, ?_, ?_⟩
    · rw [h1.hc, h1.hd]; exact hcell.colorsLen
    · rw [h1.he, h1.hd]; exact hcell.emptyLen
    · intro c; rw [h1.hd]; exact h1.len c
    · intro c i j hi hj
      rw [h1.hd] at hi hj
      rw [h1.iff c i j hi hj]
      refine eqvGen_congr ?_ ?_ i j
      · intro x y hxy
        exact Relation.EqvGen.rel _ _ ((nodeRel_congr h1.hd.symm h1.hc.symm h1.he.symm
          c x y).mp ((nodeRelOn_cellsOf c x y).mp hxy))
      · intro x y hxy
        exact Relation.EqvGen.rel _ _ ((nodeRelOn_cellsOf c x y).mpr
          ((nodeRel_congr h1.hd.symm h1.hc.symm h1.he.symm c x y).mpr hxy))
  exact hpre.update_winner

/-!
## Play and undo at the invariant level
-/

theorem list_set_self {α : Type} {l : List α} {i : Nat} {v d : α}
    (h : l.getD i d = v) (hlen : i < l.length) : l.set i v = l := by
  induction l generalizing i with
  | nil => rfl
  | cons a l ih =>
    cases i with
    | zero =>
      rw [List.getD_cons_zero] at h
      rw [List.set_cons_zero, h]
    | succ i =>
      rw [List.getD_cons_succ] at h
      rw [List.set_cons_succ, ih h (by simpa using hlen)]

/-- The board after `play` has flipped `to_play` and recorded the
move, before `set` acts. -/
def turnedBoard (b : Board) (c : Color) (pos : Pos) : Board :=
  { b with to_play := c.invert, last_move := Move.play c pos }

/-- The board after an accepted `play` wrote its cell, before
`update_groups` and `update_winner` run. -/
def placedBoard (b : Board) (c : Color) (pos : Pos) (idx : Nat) : Board :=
  { b with to_play := c.invert, last_move := Move.play c pos,
           empty_cells := b.empty_cells.set idx false,
           colors := b.colors.set idx c.toBool }

/-- An accepted `Play` move, in closed form. -/
theorem Board.play_accepted {b : Board} {c : Color} {pos : Pos}
    (hok : (b.play (Move.play c pos)).2 = true) :
    ∃ idx, b.get pos = Option.none ∧ b.idx_of pos = some idx ∧
      b.play (Move.play c pos) =
        (((placedBoard b c pos idx).update_groups pos).update_winner, true) := by
  by_cases hemp : b.is_empty pos = true
  · have hget0 : b.get pos = Option.none := by
      rw [Board.is_empty] at hemp
      exact Option.isNone_iff_eq_none.mp hemp
    cases hidx : b.idx_of pos with
    | none =>
      exfalso
      have hfalse : (b.play (Move.play c pos)).2 = false := by
        rw [Board.play]
        simp only [hemp, Bool.not_true, Bool.false_eq_true, if_false]
        rw [Board.set]
        have hidx' : (turnedBoard b c pos).idx_of pos = Option.none := hidx
        rw [show ({ b with to_play := c.invert, last_move := Move.play c pos } : Board)
          = turnedBoard b c pos from rfl]
        simp only [hidx']
      rw [hfalse] at hok
      exact Bool.noConfusion hok
    | some idx =>
      refine ⟨idx, hget0, rfl, ?_⟩
      rw [Board.play]
      simp only [hemp, Bool.not_true, Bool.false_eq_true, if_false]
      rw [Board.set]
      have hidx' : (turnedBoard b c pos).idx_of pos = some idx := hidx
      rw [show ({ b with to_play := c.invert, last_move := Move.play c pos } : Board)
        = turnedBoard b c pos from rfl]
      simp only [hidx']
      rfl
  · exfalso
    have hfalse : (b.play (Move.play c pos)).2 = false := by
      rw [Board.play]
      simp only [Bool.not_eq_true] at hemp
      simp only [hemp, Bool.not_false, if_true]
    rw [hfalse] at hok
    exact Bool.noConfusion hok

/-- A rejected `play` leaves everything except possibly `to_play` and
`last_move` unchanged. -/
theorem Board.play_rejected {b : Board} {m : Move}
    (hok : (b.play m).2 = false) :
    (b.play m).1.dims = b.dims ∧ (b.play m).1.colors = b.colors ∧
    (b.play m).1.empty_cells = b.empty_cells ∧ (b.play m).1.groupsB = b.groupsB ∧
    (b.play m).1.groupsW = b.groupsW ∧ (b.play m).1.winner = b.winner := by
  cases m with
  | resign => exact Bool.noConfusion hok
  | none => exact Bool.noConfusion hok
  | play c pos =>
    by_cases hemp : b.is_empty pos = true
    · cases hidx : b.idx_of pos with
      | none =>
        have hshape : b.play (Move.play c pos) = (turnedBoard b c pos, false) := by
          rw [Board.play]
          simp only [hemp, Bool.not_true, Bool.false_eq_true, if_false]
          rw [Board.set]
          have hidx' : (turnedBoard b c pos).idx_of pos = Option.none := hidx
          rw [show ({ b with to_play := c.invert, last_move := Move.play c pos } : Board)
            = turnedBoard b c pos from rfl]
          simp only [hidx']
        rw [hshape]
        exact ⟨rfl, rfl, rfl, rfl, rfl, rfl⟩
      | some idx =>
        exfalso
        have hshape : b.play (Move.play c pos) =
            (((placedBoard b c pos idx).update_groups pos).update_winner, true) := by
          rw [Board.play]
          simp only [hemp, Bool.not_true, Bool.false_eq_true, if_false]
          rw [Board.set]
          have hidx' : (turnedBoard b c pos).idx_of pos = some idx := hidx
          rw [show ({ b with to_play := c.invert, last_move := Move.play c pos } : Board)
            = turnedBoard b c pos from rfl]
          simp only [hidx']
          rfl
        rw [hshape] at hok
        exact Bool.noConfusion hok
    · have hshape : b.play (Move.play c pos) = (b, false) := by
        rw [Board.play]
        simp only [Bool.not_eq_true] at hemp
        simp only [hemp, Bool.not_false, if_true]
      rw [hshape]
      exact ⟨rfl, rfl, rfl, rfl, rfl, rfl⟩

/-- `BoardInv` only depends on the listed fields. -/
theorem BoardInv.transport {b b' : Board} (h : BoardInv b) (hd : b'.dims = b.dims)
    (hc : b'.colors = b.colors) (he : b'.empty_cells = b.empty_cells)
    (hgB : b'.groupsB = b.groupsB) (hgW : b'.groupsW = b.groupsW)
    (hw : b'.winner = b.winner) : BoardInv b' := by
  have hgr : ∀ c : Color, b'.groups c = b.groups c := by
    intro c; cases c
    · exact hgB
    · exact hgW
  have hnr : ∀ c x y, nodeRel b' c x y ↔ nodeRel b c x y :=
    fun c x y => nodeRel_congr hd hc he c x y
  have heg : ∀ (c : Color) (x y : Nat),
      Relation.EqvGen (nodeRel b' c) x y ↔ Relation.EqvGen (nodeRel b c) x y :=
    fun c x y => eqvGen_congr
      (fun x y hxy => Relation.EqvGen.rel _ _ ((hnr c x y).mp hxy))
      (fun x y hxy => Relation.EqvGen.rel _ _ ((hnr c x y).mpr hxy)) x y
  refine ⟨⟨⟨?_, ?_, ?_, ?_⟩, ?_, ?_, ?_⟩, ?_, ?_⟩
  · rw [hd]; exact h.pre.cells.sq
  · rw [hd]; exact h.pre.cells.nxpos
  · rw [hd, hc]; exact h.pre.cells.colorsLen
  · rw [hd, he]; exact h.pre.cells.emptyLen
  · intro c; rw [hgr c]; exact h.pre.wf c
  · intro c; rw [hgr c, hd]; exact h.pre.len c
  · intro c i j hi hj
    rw [hd] at hi hj
    rw [hgr c, h.pre.equivIff c i j hi hj]
    exact (heg c i j).symm
  · rw [hw, hd, heg]; exact h.winWhite
  · rw [hw, hd, heg, heg]; exact h.winBlack

/-- `play` preserves the invariant whenever it succeeds. -/
theorem BoardInv.play {b : Board} (h : BoardInv b) {m : Move}
    (hok : (b.play m).2 = true) : BoardInv (b.play m).1 := by
  cases m with
  | resign => exact h
  | none => exact h
  | play c pos =>
    obtain ⟨idx, hget0, hidx, hshape⟩ := Board.play_accepted hok
    rw [hshape]
    exact (@PreInv.place b (placedBoard b c pos idx) h.pre pos idx c hidx hget0 rfl rfl rfl
      (by intro c'; cases c' <;> rfl)).update_winner

/-- The board after `clear_cell` cleared its bitmap bit, before the
rebuild runs. -/
def clearedBoard (b : Board) (idx : Nat) : Board :=
  { b with empty_cells := b.empty_cells.set idx true }

theorem Board.clear_cell_eq {b : Board} {pos : Pos} {idx : Nat}
    (hidx : b.idx_of pos = some idx) :
    b.clear_cell pos = (clearedBoard b idx).rebuild_groups := by
  rw [Board.clear_cell, Board.set]
  simp only [hidx]
  rfl

/-- `nodeRel` only depends on the dimensions and the `get` map. -/
theorem nodeRel_congr_get {b₁ b₂ : Board} (hd : b₁.dims = b₂.dims)
    (hg : ∀ q, b₁.get q = b₂.get q) (c : Color) (i j : Nat) :
    nodeRel b₁ c i j ↔ nodeRel b₂ c i j := by
  unfold nodeRel
  constructor
  · rintro ⟨p, d, h1, h2, h3, h4, h5, h6⟩
    exact ⟨p, d, (Board.on_board_congr hd p) ▸ h1, (hg p) ▸ h2, h3,
      (hg (p + d)) ▸ h4, (Board.idx_of_congr hd p) ▸ h5,
      (Board.group_idx_congr hd (p + d)) ▸ h6⟩
  · rintro ⟨p, d, h1, h2, h3, h4, h5, h6⟩
    exact ⟨p, d, (Board.on_board_congr hd p) ▸ h1, (hg p) ▸ h2, h3,
      (hg (p + d)) ▸ h4, (Board.idx_of_congr hd p) ▸ h5,
      (Board.group_idx_congr hd (p + d)) ▸ h6⟩

/-- Two cached winners satisfying the same connectivity readings are
equal. -/
theorem winner_eq_of_iff {w₁ w₂ : Option Color} {P Q : Prop}
    (hpq : Q → ¬ P)
    (h1w : w₁ = some Color.white ↔ P) (h1b : w₁ = some Color.black ↔ Q)
    (h2w : w₂ = some Color.white ↔ P) (h2b : w₂ = some Color.black ↔ Q) :
    w₁ = w₂ := by
  cases w₁ with
  | none =>
    cases w₂ with
    | none => rfl
    | some c₂ =>
      cases c₂
      · exact absurd (h1b.mpr (h2b.mp rfl)) (by decide)
      · exact absurd (h1w.mpr (h2w.mp rfl)) (by decide)
  | some c₁ =>
    cases c₁ with
    | black =>
      cases w₂ with
      | none => exact absurd (h2b.mpr (h1b.mp rfl)) (by decide)
      | some c₂ =>
        cases c₂
        · rfl
        · exact absurd (h2w.mp rfl) (hpq (h1b.mp rfl))
    | white =>
      cases w₂ with
      | none => exact absurd (h2w.mpr (h1w.mp rfl)) (by decide)
      | some c₂ =>
        cases c₂
        · exact absurd (h1w.mp rfl) (hpq (h2b.mp rfl))
        · rfl

/-- The invariant holds on a fresh square board. -/
theorem boardInv_new (n : Nat) : BoardInv (Board.new ⟨Int.ofNat n, Int.ofNat n⟩) := by
  have hcell : CellsInv (Board.new ⟨Int.ofNat n, Int.ofNat n⟩) := by
    refine ⟨rfl, ?_, ?_, ?_⟩
    · exact Int.ofNat_nonneg n
    · exact List.length_replicate ..
    · exact List.length_replicate ..
  have hget : ∀ (c : Color) (x y : Nat),
      ¬ nodeRel (Board.new ⟨Int.ofNat n, Int.ofNat n⟩) c x y := by
    rintro c x y ⟨p, dd, hob, hp, _⟩
    obtain ⟨i, hi⟩ := Board.exists_idx_of_onboard hob
    have hlt := hcell.idx_lt_area hi
    rw [Board.get_of_idx hi] at hp
    have hbit : (Board.new ⟨Int.ofNat n, Int.ofNat n⟩).empty_cells.getD i false = true := by
      show (List.replicate (Pos.area ⟨Int.ofNat n, Int.ofNat n⟩) true).getD i false = true
      have hlt' : i < Pos.area ⟨Int.ofNat n, Int.ofNat n⟩ := hlt
      rw [List.getD_eq_getElem?_getD, List.getElem?_replicate, if_pos hlt']
      rfl
    rw [hbit] at hp
    simp at hp
  refine ⟨⟨hcell, ?_, ?_, ?_⟩, ?_, ?_⟩
  · intro c; cases c <;> exact UF.wf_new _
  · intro c; cases c <;> (show (UF.new _).parent.length = _) <;>
      (rw [UF.new]; exact List.length_range _)
  · intro c i j hi hj
    cases c
    · show (UF.new _).Equiv i j ↔ _
      rw [UF.equiv_new, eqvGen_empty (hget .black)]
    · show (UF.new _).Equiv i j ↔ _
      rw [UF.equiv_new, eqvGen_empty (hget .white)]
  · show Option.none = some Color.white ↔ _
    rw [eqvGen_empty (hget .white)]
    constructor
    · intro hcon; exact absurd hcon (by decide)
    · intro hcon; omega
  · show Option.none = some Color.black ↔ _
    rw [eqvGen_empty (hget .black), eqvGen_empty (hget .white)]
    constructor
    · intro hcon; exact absurd hcon (by decide)
    · rintro ⟨hcon, _⟩; omega

/-!
## Reachable player states
-/

/-- The operations a controller can drive the player's board
through: `play_move`, `undo`, and `set_to_play` (the latter performed
by `generate_move` when the side to move is forced). -/
inductive PlayerOp where
  | pm (m : Move)
  | und
  | stp (c : Color)

def applyOp (ps : MCTSPlayer) : PlayerOp → MCTSPlayer
  | .pm m => (ps.play_move m).1
  | .und => ps.undo
  | .stp c => { ps with board := { ps.board with to_play := c } }

/-- Player states reachable from a square board (any fresh square
`set_board_size`, which is also `MCTSPlayer::new`'s 13×13 shape) by
`play_move`/`undo`/`set_to_play`. -/
def SqReachable (ps : MCTSPlayer) : Prop :=
  ∃ (n : Nat) (ops : List PlayerOp),
    ps = ops.foldl applyOp (MCTSPlayer.set_board_size (Int.ofNat n) (Int.ofNat n))

theorem MCTSPlayer.play_move_board (ps : MCTSPlayer) (m : Move) :
    (ps.play_move m).1.board = (ps.board.play m).1 := by
  unfold MCTSPlayer.play_move
  cases ps.board.play m
  rfl

theorem MCTSPlayer.play_move_ok (ps : MCTSPlayer) (m : Move) :
    (ps.play_move m).2 = (ps.board.play m).2 := by
  unfold MCTSPlayer.play_move
  cases ps.board.play m
  rfl

theorem MCTSPlayer.play_move_moves (ps : MCTSPlayer) (m : Move) :
    (ps.play_move m).1.moves = m :: ps.moves := by
  unfold MCTSPlayer.play_move
  cases ps.board.play m
  rfl

/-- Every reachable player state satisfies the board invariant. -/
theorem SqReachable.boardInv {ps : MCTSPlayer} (h : SqReachable ps) :
    BoardInv ps.board := by
  obtain ⟨n, ops, rfl⟩ := h
  have step : ∀ (s : MCTSPlayer) (op : PlayerOp),
      BoardInv s.board → BoardInv (applyOp s op).board := by
    intro s op hinv
    cases op with
    | pm m =>
      show BoardInv (s.play_move m).1.board
      rw [MCTSPlayer.play_move_board]
      by_cases hok : (s.board.play m).2 = true
      · exact hinv.play hok
      · have hok' : (s.board.play m).2 = false := by
          cases hcase : (s.board.play m).2
          · rfl
          · exact absurd hcase hok
        obtain ⟨h1, h2, h3, h4, h5, h6⟩ := Board.play_rejected hok'
        exact hinv.transport h1 h2 h3 h4 h5 h6
    | und =>
      show BoardInv s.undo.board
      unfold MCTSPlayer.undo
      cases hm : s.moves with
      | nil => exact hinv
      | cons m rest =>
        cases m with
        | resign => exact hinv
        | none => exact hinv
        | play c pos =>
          show BoardInv (s.board.clear_cell pos)
          cases hidx : s.board.idx_of pos with
          | none =>
            have : s.board.clear_cell pos = s.board := by
              rw [Board.clear_cell, Board.set]
              simp only [hidx]
            rw [this]
            exact hinv
          | some idx =>
            rw [Board.clear_cell_eq hidx]
            refine CellsInv.rebuild ⟨?_, ?_, ?_, ?_⟩
            · exact hinv.pre.cells.sq
            · exact hinv.pre.cells.nxpos
            · exact hinv.pre.cells.colorsLen
            · show (s.board.empty_cells.set idx true).length = s.board.dims.area
              rw [List.length_set]
              exact hinv.pre.cells.emptyLen
    | stp c =>
      exact hinv.transport rfl rfl rfl rfl rfl rfl
  have main : ∀ (l : List PlayerOp) (s : MCTSPlayer), BoardInv s.board →
      BoardInv ((l.foldl applyOp s).board) := by
    intro l
    induction l with
    | nil => intro s hs; exact hs
    | cons op rest ih => intro s hs; exact ih _ (step s op hs)
  exact main ops _ (boardInv_new n)

/-- A stale colour bit under a set empty bit is invisible to `get`. -/
theorem Board.get_stale {b b' : Board} {idx : Nat} {v : Bool}
    (hd : b'.dims = b.dims) (hc : b'.colors = b.colors.set idx v)
    (he : b'.empty_cells = b.empty_cells)
    (hbit : b.empty_cells.getD idx false = true) (q : Pos) :
    b'.get q = b.get q := by
  rw [Board.get, Board.get, Board.idx_of_congr hd, hc, he, hd]
  cases hq : b.idx_of q with
  | none => rfl
  | some j =>
    show (if b.empty_cells.getD j false = true then Option.none
        else some (Color.ofBool ((b.colors.set idx v).getD j false))) =
      (if b.empty_cells.getD j false = true then Option.none
        else some (Color.ofBool (b.colors.getD j false)))
    by_cases hj : j = idx
    · subst hj
      rw [hbit]
      simp
    · rw [list_getD_set_ne (fun hh => hj hh.symm)]

/-- Clearing the just-placed cell of a placed-and-recomputed board
restores the `get` map, the empty bitmap and the cached winner of the
original board (the colour bit stays stale). -/
theorem Board.clear_after_place {b B₁ : Board} (hinv : BoardInv b) {c : Color} {pos : Pos}
    {idx : Nat} (hidx : b.idx_of pos = some idx) (hget0 : b.get pos = Option.none)
    (hd1 : B₁.dims = b.dims) (hc1 : B₁.colors = b.colors.set idx c.toBool)
    (he1 : B₁.empty_cells = b.empty_cells.set idx false) :
    (∀ q, (B₁.clear_cell pos).get q = b.get q) ∧
    (B₁.clear_cell pos).empty_cells = b.empty_cells ∧
    (B₁.clear_cell pos).winner = b.winner := by
  have hbit : b.empty_cells.getD idx false = true := by
    rw [Board.get_of_idx hidx] at hget0
    by_cases hbb : b.empty_cells.getD idx false = true
    · exact hbb
    · rw [if_neg hbb] at hget0
      exact absurd hget0 (by simp)
  have hlenb : idx < b.empty_cells.length := by
    rw [hinv.pre.cells.emptyLen]
    exact hinv.pre.cells.idx_lt_area hidx
  have hidx1 : B₁.idx_of pos = some idx := by
    rw [Board.idx_of_congr hd1]
    exact hidx
  rw [Board.clear_cell_eq hidx1]
  have he2 : (clearedBoard B₁ idx).empty_cells = b.empty_cells := by
    show B₁.empty_cells.set idx true = b.empty_cells
    rw [he1, List.set_set]
    exact list_set_self hbit hlenb
  have hc2 : (clearedBoard B₁ idx).colors = b.colors.set idx c.toBool := hc1
  have hd2 : (clearedBoard B₁ idx).dims = b.dims := hd1
  have hcell2 : CellsInv (clearedBoard B₁ idx) := by
    refine ⟨?_, ?_, ?_, ?_⟩
    · show (clearedBoard B₁ idx).dims.x = (clearedBoard B₁ idx).dims.y
      rw [hd2]
      exact hinv.pre.cells.sq
    · show 0 ≤ (clearedBoard B₁ idx).dims.x
      rw [hd2]
      exact hinv.pre.cells.nxpos
    · rw [hc2, hd2, List.length_set]
      exact hinv.pre.cells.colorsLen
    · rw [he2, hd2]
      exact hinv.pre.cells.emptyLen
  have hInv3 : BoardInv (clearedBoard B₁ idx).rebuild_groups := CellsInv.rebuild hcell2
  obtain ⟨r1, r2, r3, _, _⟩ := Board.rebuild_frame (clearedBoard B₁ idx)
  have hd3 : ((clearedBoard B₁ idx).rebuild_groups).dims = b.dims := r1.trans hd2
  have hc3 : ((clearedBoard B₁ idx).rebuild_groups).colors = b.colors.set idx c.toBool :=
    r2.trans hc2
  have he3 : ((clearedBoard B₁ idx).rebuild_groups).empty_cells = b.empty_cells :=
    r3.trans he2
  have hget : ∀ q, ((clearedBoard B₁ idx).rebuild_groups).get q = b.get q :=
    fun q => Board.get_stale hd3 hc3 he3 hbit q
  refine ⟨hget, he3, ?_⟩
  have heg : ∀ (c' : Color) (x y : Nat),
      Relation.EqvGen (nodeRel ((clearedBoard B₁ idx).rebuild_groups) c') x y ↔
      Relation.EqvGen (nodeRel b c') x y :=
    fun c' x y => eqvGen_congr
      (fun u v huv => Relation.EqvGen.rel _ _ ((nodeRel_congr_get hd3 hget c' u v).mp huv))
      (fun u v huv => Relation.EqvGen.rel _ _ ((nodeRel_congr_get hd3 hget c' u v).mpr huv))
      x y
  have h1w : ((clearedBoard B₁ idx).rebuild_groups).winner = some Color.white ↔
      Relation.EqvGen (nodeRel b .white) b.dims.area (b.dims.area + 1) := by
    rw [hInv3.winWhite, hd3]
    exact heg .white _ _
  have h1b : ((clearedBoard B₁ idx).rebuild_groups).winner = some Color.black ↔
      (Relation.EqvGen (nodeRel b .black) b.dims.area (b.dims.area + 1) ∧
       ¬ Relation.EqvGen (nodeRel b .white) b.dims.area (b.dims.area + 1)) := by
    rw [hInv3.winBlack, hd3]
    exact and_congr (heg .black _ _) (not_congr (heg .white _ _))
  exact winner_eq_of_iff (fun hq => hq.2) h1w h1b hinv.winWhite hinv.winBlack

/-- Play followed by `clear_cell` at the same cell, over any board
satisfying the invariant. -/
theorem Board.play_then_clear {b : Board} (hinv : BoardInv b) {c : Color} {pos : Pos}
    (hok : (b.play (Move.play c pos)).2 = true) :
    (∀ q, ((b.play (Move.play c pos)).1.clear_cell pos).get q = b.get q) ∧
    ((b.play (Move.play c pos)).1.clear_cell pos).empty_cells = b.empty_cells ∧
    ((b.play (Move.play c pos)).1.clear_cell pos).winner = b.winner := by
  obtain ⟨idx, hget0, hidx, hshape⟩ := Board.play_accepted hok
  have hB1 : (b.play (Move.play c pos)).1 =
      ((placedBoard b c pos idx).update_groups pos).update_winner := by
    rw [hshape]
  rw [hB1]
  have hd1 : (((placedBoard b c pos idx).update_groups pos).update_winner).dims = b.dims :=
    (Board.update_winner_frame _).1.trans
      ((Board.update_groups_frame (placedBoard b c pos idx) pos).1.trans rfl)
  have hc1 : (((placedBoard b c pos idx).update_groups pos).update_winner).colors =
      b.colors.set idx c.toBool :=
    (Board.update_winner_frame _).2.1.trans
      ((Board.update_groups_frame (placedBoard b c pos idx) pos).2.1.trans rfl)
  have he1 : (((placedBoard b c pos idx).update_groups pos).update_winner).empty_cells =
      b.empty_cells.set idx false :=
    (Board.update_winner_frame _).2.2.1.trans
      ((Board.update_groups_frame (placedBoard b c pos idx) pos).2.2.1.trans rfl)
  exact Board.clear_after_place hinv hidx hget0 hd1 hc1 he1

/-- The subtree `play_move` re-roots onto. -/
def nextTree (ps : MCTSPlayer) (m : Move) : GTree :=
  match ps.tree.children.find? (fun t => decide (t.action = m)) with
  | some t => t
  | Option.none => freshNode

theorem MCTSPlayer.play_move_fst (ps : MCTSPlayer) (m : Move) :
    (ps.play_move m).1 = ⟨(ps.board.play m).1, nextTree ps m, m :: ps.moves⟩ := by
  unfold MCTSPlayer.play_move nextTree
  cases ps.board.play m
  rfl

/-- An empty on-board cell is always accepted by `play`, regardless of
any other board state. -/
theorem Board.play_ok_of_empty {b : Board} {c : Color} {pos : Pos} {idx : Nat}
    (hemp : b.get pos = Option.none) (hidx : b.idx_of pos = some idx) :
    (b.play (Move.play c pos)).2 = true := by
  have he : b.is_empty pos = true := by
    rw [Board.is_empty, hemp]
    rfl
  rw [Board.play]
  simp only [he, Bool.not_true, Bool.false_eq_true, if_false]
  rw [Board.set]
  have hidx' : (turnedBoard b c pos).idx_of pos = some idx := hidx
  rw [show ({ b with to_play := c.invert, last_move := Move.play c pos } : Board)
    = turnedBoard b c pos from rfl]
  simp only [hidx']

/-!
## Concrete boards and player states used by the claims
-/

/-- A 2×2 player state with one Black stone at (0,0). -/
def psBase22 : MCTSPlayer :=
  ((MCTSPlayer.set_board_size (Int.ofNat 2) (Int.ofNat 2)).play_move
    (Move.play Color.black ⟨0, 0⟩)).1

/-- A 3×2 board with one Black stone played at (0,1) (whose linearised
index collides with the cell (2,0)). -/
def b32 : Board := ((Board.new ⟨3, 2⟩).play (Move.play Color.black ⟨0, 1⟩)).1

/-- Modelled from the spec: one step of a "same-colour-`c` 6-connected
path" between two on-board cells holding colour `c`, along the six Hex
neighbour directions. -/
def stoneAdj (b : Board) (c : Color) (p q : Pos) : Prop :=
  b.on_board p = true ∧ b.on_board q = true ∧
  b.get p = some c ∧ b.get q = some c ∧ ∃ d ∈ neighborPatterns, q = p + d

/-- Play a colour at each coordinate string (in `FromStr` form) in
turn, ignoring unparseable strings. -/
def playParsed (b : Board) (c : Color) (names : List (List Char)) : Board :=
  names.foldl (fun bd s =>
    match Pos.parse s with
    | some p => (bd.play (Move.play c p)).1
    | Option.none => bd) b

/-- A 3×2 board with a completed Black top-bottom chain at x = 1. -/
def c10b : Board :=
  (((Board.new ⟨3, 2⟩).play (Move.play Color.black ⟨1, 0⟩)).1.play
    (Move.play Color.black ⟨1, 1⟩)).1

/-- `c10b` after three further White stones completing a left-right
White connection (through the index collision of (0,1) and (2,0)). -/
def c10c : Board :=
  (((c10b.play (Move.play Color.white ⟨0, 0⟩)).1.play
    (Move.play Color.white ⟨0, 1⟩)).1.play (Move.play Color.white ⟨2, 1⟩)).1

/-!
## The claims
-/

/-- C1 (amended): a rejected `play_move` leaves every cell-state field
of the board — dimensions, colour bitmap, empty bitmap, both
union-find forests and the cached winner — unchanged, but it still
pushes the rejected move onto the undo history (and re-roots the
search tree); the board's `to_play`/`last_move` may also change when
the rejection came from an off-board cell. -/
theorem play_move_rejected_frame (ps : MCTSPlayer) (m : Move)
    (hok : (ps.board.play m).2 = false) :
    (ps.play_move m).2 = false ∧
    (ps.play_move m).1.board.dims = ps.board.dims ∧
    (ps.play_move m).1.board.colors = ps.board.colors ∧
    (ps.play_move m).1.board.empty_cells = ps.board.empty_cells ∧
    (ps.play_move m).1.board.groupsB = ps.board.groupsB ∧
    (ps.play_move m).1.board.groupsW = ps.board.groupsW ∧
    (ps.play_move m).1.board.winner = ps.board.winner ∧
    (ps.play_move m).1.moves = m :: ps.moves := by
  obtain ⟨h1, h2, h3, h4, h5, h6⟩ := Board.play_rejected hok
  refine ⟨?_, ?_, ?_, ?_, ?_, ?_, ?_, ?_⟩
  · rw [MCTSPlayer.play_move_ok]
    exact hok
  · rw [MCTSPlayer.play_move_board]
    exact h1
  · rw [MCTSPlayer.play_move_board]
    exact h2
  · rw [MCTSPlayer.play_move_board]
    exact h3
  · rw [MCTSPlayer.play_move_board]
    exact h4
  · rw [MCTSPlayer.play_move_board]
    exact h5
  · rw [MCTSPlayer.play_move_board]
    exact h6
  · rw [MCTSPlayer.play_move_moves]

theorem play_move_rejected_frame_witness :
    (psBase22.board.play (Move.play Color.black ⟨0, 0⟩)).2 = false ∧
    (psBase22.play_move (Move.play Color.black ⟨0, 0⟩)).1.board.winner
      = psBase22.board.winner :=
  ⟨by decide,
    (play_move_rejected_frame psBase22 (Move.play Color.black ⟨0, 0⟩)
      (by decide)).2.2.2.2.2.2.1⟩

/-- A rejected `play_move` does NOT leave the undo history as it was:
the rejected move is pushed. -/
theorem play_move_rejected_pushes :
    (psBase22.board.play (Move.play Color.black ⟨0, 0⟩)).2 = false ∧
    (psBase22.play_move (Move.play Color.black ⟨0, 0⟩)).1.moves ≠ psBase22.moves := by
  decide

/-- C2 (code bug evidence): on the reachable 3×2 board `b32`, the two
distinct on-board cells (0,1) and (2,0) share the single linearised
index 2 — so they are one element of the Black forest (trivially in
the same group) — while no same-colour 6-connected path of Black
stones joins them. -/
theorem groups_alias_without_path :
    b32.on_board ⟨0, 1⟩ = true ∧ b32.on_board ⟨2, 0⟩ = true ∧
    (⟨0, 1⟩ : Pos) ≠ ⟨2, 0⟩ ∧
    b32.idx_of ⟨0, 1⟩ = some 2 ∧ b32.idx_of ⟨2, 0⟩ = some 2 ∧
    ¬ Relation.ReflTransGen (stoneAdj b32 Color.black) ⟨0, 1⟩ ⟨2, 0⟩ := by
  refine ⟨by decide, by decide, by decide, by decide, by decide, ?_⟩
  intro hpath
  have key : ∀ q : Pos, Relation.ReflTransGen (stoneAdj b32 Color.black) ⟨0, 1⟩ q →
      q = ⟨0, 1⟩ := by
    intro q hq
    induction hq with
    | refl => rfl
    | tail hxy hstep ih =>
      subst ih
      obtain ⟨h1, hob2, h3, hgc, d, hd, hcq⟩ := hstep
      rw [hcq] at hob2 hgc ⊢
      simp only [neighborPatterns, List.mem_cons, List.not_mem_nil, or_false] at hd
      rcases hd with rfl | rfl | rfl | rfl | rfl | rfl <;>
        (exfalso; revert hob2 hgc; decide)
  exact absurd (key ⟨2, 0⟩ hpath) (by decide)

/-- C3 (amended): on a fresh 5×5 board, playing Black at a1…e1 (the
y = 0 row) leaves `winner()` at `None` — Black's edges are the top and
bottom rows; the matching winning line is the column a1…a5, after
which `winner() = Some(Black)`. -/
theorem column_a1_a5_wins :
    (playParsed (Board.new ⟨5, 5⟩) Color.black
      [['a', '1'], ['a', '2'], ['a', '3'], ['a', '4'], ['a', '5']]).winner
      = some Color.black := by
  decide

/-- Black a1…e1 on a fresh 5×5 board leaves no winner. -/
theorem row_a1_e1_no_winner :
    (playParsed (Board.new ⟨5, 5⟩) Color.black
      [['a', '1'], ['b', '1'], ['c', '1'], ['d', '1'], ['e', '1']]).winner
      = Option.none := by
  decide

/-- C4 (amended): for every board, `play` on `Pass` or `Resign`
returns `true` and is a complete no-op — it does not even update
`last_move`. -/
theorem play_pass_resign_noop (b : Board) :
    b.play Move.none = (b, true) ∧ b.play Move.resign = (b, true) :=
  ⟨rfl, rfl⟩

/-- `play(Resign)` leaves `last_move` at its previous value instead of
recording the move. -/
theorem play_resign_keeps_last_move :
    ((Board.new ⟨2, 2⟩).play Move.resign).1.last_move = Move.none ∧
    Move.none ≠ Move.resign := by
  decide

/-- C5 (code bug evidence): on the non-final 3×2 board the rollout
loop aborts in the `"roll out chose filled cell!"` branch (after the
draws 3, 0, 2) instead of halting normally with `winner()` set. -/
theorem rollout_panics_filled_cell :
    (Board.new ⟨3, 2⟩).winner = Option.none ∧
    rollOut (Board.new ⟨3, 2⟩) [3, 0, 2] = .error RollErr.filledCell := by
  decide

/-- C6 (code bug evidence): on the non-final 3×2 board the rollout
(draws 2, 0, 2) plays a `Play` at a cell `Board::play` rejects as
filled, reaching the fatal branch. -/
theorem rollout_plays_filled_cell :
    (Board.new ⟨3, 2⟩).winner = Option.none ∧
    rollOut (Board.new ⟨3, 2⟩) [2, 0, 2] = .error RollErr.filledCell := by
  decide

/-- C7: sequentially, a fresh `AtomicInitVec` slices to the empty
list; the first `init v` installs `v` and returns `true`; on an
initialized vector any later `init w` returns `false`, leaves the
published vector in place, and `slice` still returns the first
vector. -/
theorem atomicInitVec_spec {α : Type} (v w : List α) :
    AtomicInitVec.slice (AtomicInitVec.new : AtomicInitVec α) = [] ∧
    AtomicInitVec.init (AtomicInitVec.new : AtomicInitVec α) v = (some v, true) ∧
    AtomicInitVec.init (some v : AtomicInitVec α) w = (some v, false) ∧
    AtomicInitVec.slice (some v : AtomicInitVec α) = v :=
  ⟨rfl, rfl, rfl, rfl⟩

/-- C8 (amended): from any player state reachable from a fresh SQUARE
board, playing a move the board ACCEPTS and then undoing restores the
observable cell map (`get`), the empty bitmap and the cached winner
(the raw colour bitmap may keep a stale bit under the re-emptied
cell, and the tree may differ).  Both restrictions are necessary —
see the counterexample: a rejected `Play` is popped and clears a real
stone, and on a reachable non-square (3×2) state even an accepted
play followed by `undo` flips the winner cache through the `idx_of`
collision's phantom stone. -/
theorem play_undo_restores {ps : MCTSPlayer} (hre : SqReachable ps) {m : Move}
    (hok : (ps.board.play m).2 = true) :
    (∀ q, ((ps.play_move m).1.undo).board.get q = ps.board.get q) ∧
    ((ps.play_move m).1.undo).board.empty_cells = ps.board.empty_cells ∧
    ((ps.play_move m).1.undo).board.winner = ps.board.winner := by
  cases m with
  | resign =>
    rw [MCTSPlayer.play_move_fst]
    exact ⟨fun q => rfl, rfl, rfl⟩
  | none =>
    rw [MCTSPlayer.play_move_fst]
    exact ⟨fun q => rfl, rfl, rfl⟩
  | play c pos =>
    have hub : ((ps.play_move (Move.play c pos)).1).undo.board
        = (ps.board.play (Move.play c pos)).1.clear_cell pos := by
      rw [MCTSPlayer.play_move_fst]
      rfl
    rw [hub]
    exact Board.play_then_clear hre.boardInv hok

theorem play_undo_restores_witness :
    SqReachable (MCTSPlayer.set_board_size (Int.ofNat 2) (Int.ofNat 2)) ∧
    ((MCTSPlayer.set_board_size (Int.ofNat 2) (Int.ofNat 2)).board.play
      (Move.play Color.black ⟨0, 0⟩)).2 = true ∧
    (((MCTSPlayer.set_board_size (Int.ofNat 2) (Int.ofNat 2)).play_move
        (Move.play Color.black ⟨0, 0⟩)).1.undo).board.empty_cells
      = (MCTSPlayer.set_board_size (Int.ofNat 2) (Int.ofNat 2)).board.empty_cells :=
  ⟨⟨2, [], rfl⟩, by decide,
    (play_undo_restores ⟨2, [], rfl⟩ (by decide)).2.1⟩

/-- Player states reachable from any fresh board (square or not) by
`play_move`/`undo`/`set_to_play`. -/
def Reachable (ps : MCTSPlayer) : Prop :=
  ∃ (cols rows : Int) (ops : List PlayerOp),
    ps = ops.foldl applyOp (MCTSPlayer.set_board_size cols rows)

/-- A 3×2 player state with one Black stone played at (0,1). -/
def ps32 : MCTSPlayer :=
  ((MCTSPlayer.set_board_size (Int.ofNat 3) (Int.ofNat 2)).play_move
    (Move.play Color.black ⟨0, 1⟩)).1

/-- Play-then-undo fails to restore the board outside the theorem's
hypotheses, on reachable states either way.  A REJECTED move is still
pushed, so `undo` clears its cell, erasing the stone that was there
(empty bitmap differs).  And on a reachable NON-SQUARE (3×2) state
even an ACCEPTED play followed by `undo` corrupts the winner cache:
the rebuild processes the phantom Black stone that the `idx_of`
collision shows at (2,0) and flips `winner()` from `None` to
`Some(Black)`. -/
theorem play_undo_failures :
    (Reachable psBase22 ∧
     (psBase22.board.play (Move.play Color.white ⟨0, 0⟩)).2 = false ∧
     ((psBase22.play_move (Move.play Color.white ⟨0, 0⟩)).1.undo).board.empty_cells
       ≠ psBase22.board.empty_cells) ∧
    (Reachable ps32 ∧
     ps32.board.winner = Option.none ∧
     (ps32.board.play (Move.play Color.white ⟨0, 0⟩)).2 = true ∧
     ((ps32.play_move (Move.play Color.white ⟨0, 0⟩)).1.undo).board.winner
       = some Color.black) :=
  ⟨⟨⟨Int.ofNat 2, Int.ofNat 2, [PlayerOp.pm (Move.play Color.black ⟨0, 0⟩)], rfl⟩,
      by decide, by decide⟩,
   ⟨⟨Int.ofNat 3, Int.ofNat 2, [PlayerOp.pm (Move.play Color.black ⟨0, 1⟩)], rfl⟩,
      by decide, by decide, by decide⟩⟩

/-- C9: formatting then parsing is the identity on every position of a
26×26-or-smaller board. -/
theorem parse_fmt_roundtrip (p : Pos) (hx0 : 0 ≤ p.x) (hx : p.x < 26)
    (hy0 : 0 ≤ p.y) (hy : p.y < 26) : Pos.parse (Pos.fmt p) = some p := by
  have hb : ∀ x : Nat, x < 26 → ∀ y : Nat, y < 26 →
      Pos.parse (Pos.fmt ⟨Int.ofNat x, Int.ofNat y⟩)
        = some ⟨Int.ofNat x, Int.ofNat y⟩ := by
    decide
  have hp : p = ⟨Int.ofNat p.x.toNat, Int.ofNat p.y.toNat⟩ := by
    have hx' : Int.ofNat p.x.toNat = p.x := by
      rw [Int.ofNat_eq_coe]
      omega
    have hy' : Int.ofNat p.y.toNat = p.y := by
      rw [Int.ofNat_eq_coe]
      omega
    rw [hx', hy']
  rw [hp]
  exact hb p.x.toNat (by omega) p.y.toNat (by omega)

theorem parse_fmt_roundtrip_witness :
    (0 : Int) ≤ 3 ∧ (3 : Int) < 26 ∧ (0 : Int) ≤ 7 ∧ (7 : Int) < 26 ∧
    Pos.parse (Pos.fmt ⟨3, 7⟩) = some ⟨3, 7⟩ :=
  ⟨by decide, by decide, by decide, by decide,
    parse_fmt_roundtrip ⟨3, 7⟩ (by decide) (by decide) (by decide) (by decide)⟩

/-- C10: `play` never consults the winner: any empty on-board cell is
accepted and its stone placed even when `winner()` is already `Some`;
concretely, on `c10b` (winner Black) three further White stones are
all accepted and flip `winner()` to White (`c10c`). -/
theorem play_no_gameover_check {b : Board} {c c' : Color} {pos : Pos} {idx : Nat}
    (hw : b.winner = some c) (hemp : b.get pos = Option.none)
    (hidx : b.idx_of pos = some idx) (hel : idx < b.empty_cells.length)
    (hcl : idx < b.colors.length) :
    ((b.play (Move.play c' pos)).2 = true ∧
     (b.play (Move.play c' pos)).1.get pos = some c') ∧
    c10b.winner = some Color.black ∧ c10c.winner = some Color.white := by
  refine ⟨⟨Board.play_ok_of_empty hemp hidx, ?_⟩, by decide, by decide⟩
  obtain ⟨idx', _, hidx', hshape⟩ :=
    Board.play_accepted (Board.play_ok_of_empty hemp hidx (c := c'))
  have hii : idx' = idx := Option.some.inj ((hidx'.symm).trans hidx)
  subst hii
  rw [hshape]
  have hd1 : ((((placedBoard b c' pos idx').update_groups pos).update_winner, true) :
      Board × Bool).1.dims = b.dims :=
    (Board.update_winner_frame _).1.trans
      ((Board.update_groups_frame (placedBoard b c' pos idx') pos).1.trans rfl)
  have hc1 : ((((placedBoard b c' pos idx').update_groups pos).update_winner, true) :
      Board × Bool).1.colors = b.colors.set idx' c'.toBool :=
    (Board.update_winner_frame _).2.1.trans
      ((Board.update_groups_frame (placedBoard b c' pos idx') pos).2.1.trans rfl)
  have he1 : ((((placedBoard b c' pos idx').update_groups pos).update_winner, true) :
      Board × Bool).1.empty_cells = b.empty_cells.set idx' false :=
    (Board.update_winner_frame _).2.2.1.trans
      ((Board.update_groups_frame (placedBoard b c' pos idx') pos).2.2.1.trans rfl)
  have hidx1 : ((((placedBoard b c' pos idx').update_groups pos).update_winner, true) :
      Board × Bool).1.idx_of pos = some idx' := by
    rw [Board.idx_of_congr hd1]
    exact hidx
  rw [Board.get_of_idx hidx1, he1, hc1,
    list_getD_set_self hel, list_getD_set_self hcl]
  rw [Color.ofBool_toBool]
  rfl

theorem play_no_gameover_check_witness :
    c10b.winner = some Color.black ∧ c10b.get ⟨0, 0⟩ = Option.none ∧
    c10b.idx_of ⟨0, 0⟩ = some 0 ∧ 0 < c10b.empty_cells.length ∧
    0 < c10b.colors.length ∧
    ((c10b.play (Move.play Color.white ⟨0, 0⟩)).2 = true ∧
     (c10b.play (Move.play Color.white ⟨0, 0⟩)).1.get ⟨0, 0⟩ = some Color.white) :=
  ⟨by decide, by decide, by decide, by decide, by decide,
    (@play_no_gameover_check c10b Color.black Color.white ⟨0, 0⟩ 0 (by decide)
      (by decide) (by decide) (by decide) (by decide)).1⟩

end Coronene
